import Mathlib

/-!
Verification of the EPUB build scripts (escape_the_hell_myth repository).

The Python sources are shallowly embedded: strings are modelled as
`List Char` (for the character-level text algorithms) or `String` (for
identifiers and file names), the filesystem state that a function consults
is passed explicitly as parameters, and `str.replace` / the one regex
substitution used by the scripts are modelled by executable Lean functions
with the same leftmost, non-overlapping semantics.
-/

namespace EpubSpec

/-- Boolean test that `p` is a prefix of `l` (used to model Python substring
matching at a position). -/
def startsWith : List Char → List Char → Bool
  | [], _ => true
  | _ :: _, [] => false
  | a :: as, b :: bs => a == b && startsWith as bs

/-- Fuelled worker for `pyReplace`; the fuel only forces structural
recursion (so that the kernel can evaluate concrete instances) and is
always at least the list length when called through `pyReplace`. -/
def pyReplaceF (p : Char) (ps rep : List Char) : Nat → List Char → List Char
  | _, [] => []
  | 0, l => l
  | fuel + 1, c :: t =>
    if startsWith (p :: ps) (c :: t) then
      rep ++ pyReplaceF p ps rep fuel (t.drop ps.length)
    else
      c :: pyReplaceF p ps rep fuel t

/-- Model of Python `str.replace(old, new)` for a non-empty pattern
`p :: ps`: scan left to right, replace every leftmost non-overlapping
occurrence of the pattern by `rep`. -/
def pyReplace (p : Char) (ps : List Char) (rep : List Char) (l : List Char) :
    List Char :=
  pyReplaceF p ps rep l.length l

theorem pyReplaceF_fuel (p : Char) (ps rep : List Char) :
    ∀ (f1 : Nat) (l : List Char) (f2 : Nat), l.length ≤ f1 → l.length ≤ f2 →
      pyReplaceF p ps rep f1 l = pyReplaceF p ps rep f2 l := by
  intro f1
  induction f1 with
  | zero =>
    intro l f2 h1 _
    have : l = [] := List.eq_nil_of_length_eq_zero (Nat.le_zero.mp h1)
    subst this
    cases f2 <;> rfl
  | succ f1 ih =>
    intro l f2 h1 h2
    cases l with
    | nil => cases f2 <;> rfl
    | cons c t =>
      cases f2 with
      | zero => simp at h2
      | succ f2 =>
        simp only [pyReplaceF]
        split
        · rw [ih (t.drop ps.length) f2
            (by simp only [List.length_drop] at *; simp at h1; omega)
            (by simp only [List.length_drop] at *; simp at h2; omega)]
        · rw [ih t f2 (by simp at h1; omega) (by simp at h2; omega)]

/-- Whether the non-empty pattern `p :: ps` occurs somewhere in the list. -/
def hasOcc (p : Char) (ps : List Char) : List Char → Bool
  | [] => false
  | c :: t => startsWith (p :: ps) (c :: t) || hasOcc p ps t

theorem startsWith_iff (pat l : List Char) :
    startsWith pat l = true ↔ ∃ t, l = pat ++ t := by
  induction pat generalizing l with
  | nil => simp [startsWith]
  | cons a as ih =>
    cases l with
    | nil => simp [startsWith]
    | cons b bs =>
      simp only [startsWith, Bool.and_eq_true, beq_iff_eq, ih, List.cons_append,
        List.cons.injEq]
      constructor
      · rintro ⟨h1, t, h2⟩; exact ⟨t, h1.symm, h2⟩
      · rintro ⟨t, h1, h2⟩; exact ⟨h1.symm, t, h2⟩

theorem pyReplace_nil (p : Char) (ps rep : List Char) :
    pyReplace p ps rep [] = [] := rfl

theorem pyReplace_cons (p : Char) (ps rep : List Char) (c : Char) (t : List Char) :
    pyReplace p ps rep (c :: t) =
      if startsWith (p :: ps) (c :: t) then
        rep ++ pyReplace p ps rep (t.drop ps.length)
      else
        c :: pyReplace p ps rep t := by
  unfold pyReplace
  simp only [List.length_cons, pyReplaceF]
  split
  · rw [pyReplaceF_fuel p ps rep t.length (t.drop ps.length)
      (t.drop ps.length).length (by simp [List.length_drop]) (le_refl _)]
  · rfl

theorem pyReplace_of_not_hasOcc (p : Char) (ps rep : List Char) :
    ∀ l, hasOcc p ps l = false → pyReplace p ps rep l = l := by
  intro l
  induction l with
  | nil => intro _; rfl
  | cons c t ih =>
    intro h
    simp only [hasOcc, Bool.or_eq_false_iff] at h
    rw [pyReplace_cons, h.1]
    simp [ih h.2]

/-- Single-character replacement unfolds pointwise. -/
theorem pyReplace_single_cons (p : Char) (rep : List Char) (c : Char) (t : List Char) :
    pyReplace p [] rep (c :: t) =
      (if c = p then rep else [c]) ++ pyReplace p [] rep t := by
  rw [pyReplace_cons]
  by_cases h : c = p
  · simp [startsWith, h]
  · simp [startsWith, h, Ne.symm h]

theorem mem_pyReplace_single (p : Char) (rep : List Char) :
    ∀ l a, a ∈ pyReplace p [] rep l → a ∈ rep ∨ (a ∈ l ∧ a ≠ p) := by
  intro l
  induction l with
  | nil =>
    intro a h
    rw [pyReplace_nil] at h
    exact absurd h (List.not_mem_nil a)
  | cons c t ih =>
    intro a h
    rw [pyReplace_single_cons] at h
    rcases List.mem_append.mp h with h1 | h2
    · by_cases hc : c = p
      · subst hc; simp at h1; exact Or.inl h1
      · rw [if_neg hc] at h1
        simp at h1
        subst h1
        exact Or.inr ⟨List.mem_cons_self _ _, hc⟩
    · rcases ih a h2 with h3 | ⟨h4, h5⟩
      · exact Or.inl h3
      · exact Or.inr ⟨List.mem_cons_of_mem _ h4, h5⟩

theorem pyReplace_single_id (p : Char) (rep : List Char) :
    ∀ l, p ∉ l → pyReplace p [] rep l = l := by
  intro l
  induction l with
  | nil => intro _; rfl
  | cons c t ih =>
    intro h
    rw [pyReplace_single_cons]
    have hc : c ≠ p := fun hc => h (hc ▸ List.mem_cons_self _ _)
    simp [hc, ih (fun hm => h (List.mem_cons_of_mem _ hm))]

/-! ### Decimal rendering of naturals (Python `str(n)` for the id suffixes
and placeholder counters). -/

/-- Character for a single decimal digit `d < 10`. -/
def digitCh (d : Nat) : Char := Char.ofNat (48 + d)

/-- Fuelled worker for `natChars`; the fuel only forces structural
recursion and is always sufficient when called through `natChars`. -/
def natCharsF : Nat → Nat → List Char
  | 0, n => [digitCh n]
  | fuel + 1, n =>
    if n < 10 then [digitCh n]
    else natCharsF fuel (n / 10) ++ [digitCh (n % 10)]

/-- Decimal digit string of a natural number, most significant digit
first — the same text Python's `str(n)` produces. -/
def natChars (n : Nat) : List Char := natCharsF n n

theorem natCharsF_fuel :
    ∀ (f1 n f2 : Nat), n ≤ f1 → n ≤ f2 → natCharsF f1 n = natCharsF f2 n := by
  intro f1
  induction f1 with
  | zero =>
    intro n f2 h1 _
    have hn : n = 0 := Nat.le_zero.mp h1
    subst hn
    cases f2 <;> rfl
  | succ f1 ih =>
    intro n f2 h1 h2
    by_cases hn : n < 10
    · cases f2 with
      | zero =>
        have : n = 0 := Nat.le_zero.mp h2
        subst this
        rfl
      | succ f2 => simp [natCharsF, hn]
    · have h10 : 10 ≤ n := Nat.le_of_not_lt hn
      cases f2 with
      | zero => omega
      | succ f2 =>
        simp only [natCharsF, if_neg hn]
        rw [ih (n / 10) f2 (by omega) (by omega)]

theorem natChars_eq (n : Nat) :
    natChars n = if n < 10 then [digitCh n]
      else natChars (n / 10) ++ [digitCh (n % 10)] := by
  unfold natChars
  by_cases hn : n < 10
  · cases n with
    | zero => simp [natCharsF, hn]
    | succ m => simp [natCharsF, hn]
  · have h10 : 10 ≤ n := Nat.le_of_not_lt hn
    obtain ⟨m, hm⟩ : ∃ m, n = m + 1 := ⟨n - 1, by omega⟩
    rw [hm]
    simp only [natCharsF, if_neg (hm ▸ hn)]
    rw [natCharsF_fuel m ((m + 1) / 10) ((m + 1) / 10) (by omega) (le_refl _)]

theorem natChars_ne_nil (n : Nat) : natChars n ≠ [] := by
  rw [natChars_eq]
  split
  · simp
  · simp

theorem digitCh_val (d : Nat) (hd : d < 10) : (digitCh d).toNat = 48 + d := by
  interval_cases d <;> decide

theorem digitCh_isDigit (d : Nat) (hd : d < 10) : (digitCh d).isDigit = true := by
  interval_cases d <;> decide

/-- Evaluator recovering the number from its digit list; this is the tool
for proving `natChars` injective. -/
def digitsVal (l : List Char) : Nat :=
  l.foldl (fun a c => 10 * a + (c.toNat - 48)) 0

theorem digitsVal_append_singleton (l : List Char) (c : Char) :
    digitsVal (l ++ [c]) = 10 * digitsVal l + (c.toNat - 48) := by
  simp [digitsVal, List.foldl_append]

theorem digitsVal_natChars (n : Nat) : digitsVal (natChars n) = n := by
  induction n using Nat.strong_induction_on with
  | _ n ih =>
    rw [natChars_eq]
    split
    · next h =>
      simp [digitsVal, digitCh_val n h]
    · next h =>
      rw [digitsVal_append_singleton,
        ih (n / 10) (Nat.div_lt_self (by omega) (by omega)),
        digitCh_val (n % 10) (Nat.mod_lt _ (by omega))]
      omega

theorem natChars_injective : Function.Injective natChars := by
  intro a b h
  have := digitsVal_natChars a
  rw [h, digitsVal_natChars] at this
  omega

theorem natChars_mem_isDigit (n : Nat) : ∀ c ∈ natChars n, c.isDigit = true := by
  induction n using Nat.strong_induction_on with
  | _ n ih =>
    rw [natChars_eq]
    split
    · next h =>
      intro c hc
      simp at hc
      subst hc
      exact digitCh_isDigit n h
    · next h =>
      intro c hc
      rcases List.mem_append.mp hc with h1 | h2
      · exact ih (n / 10) (Nat.div_lt_self (by omega) (by omega)) c h1
      · simp at h2
        subst h2
        exact digitCh_isDigit (n % 10) (Nat.mod_lt _ (by omega))

/-! ### The filename sanitizer.

Source: `create_epub_complete.py`, `sanitize_filename` (lines 818-824):
replace each space with a hyphen, then delete parentheses. -/

/-- Embedding of `sanitize_filename`:
`filename.replace(' ', '-').replace('(', '').replace(')', '')`. -/
def sanitize_filename (filename : List Char) : List Char :=
  pyReplace ')' [] []
    (pyReplace '(' [] []
      (pyReplace ' ' [] ['-'] filename))

theorem space_not_mem_sanitize (l : List Char) : ' ' ∉ sanitize_filename l := by
  intro h
  rcases mem_pyReplace_single _ _ _ _ h with h1 | ⟨h2, _⟩
  · simp at h1
  rcases mem_pyReplace_single _ _ _ _ h2 with h3 | ⟨h4, _⟩
  · simp at h3
  rcases mem_pyReplace_single _ _ _ _ h4 with h5 | ⟨_, h6⟩
  · simp at h5
  · exact h6 rfl

theorem lparen_not_mem_sanitize (l : List Char) : '(' ∉ sanitize_filename l := by
  intro h
  rcases mem_pyReplace_single _ _ _ _ h with h1 | ⟨h2, _⟩
  · simp at h1
  rcases mem_pyReplace_single _ _ _ _ h2 with h3 | ⟨_, h4⟩
  · simp at h3
  · exact h4 rfl

theorem rparen_not_mem_sanitize (l : List Char) : ')' ∉ sanitize_filename l := by
  intro h
  rcases mem_pyReplace_single _ _ _ _ h with h1 | ⟨_, h2⟩
  · simp at h1
  · exact h2 rfl

theorem sanitize_filename_id_of_clean (l : List Char) (h1 : ' ' ∉ l)
    (h2 : '(' ∉ l) (h3 : ')' ∉ l) : sanitize_filename l = l := by
  unfold sanitize_filename
  rw [pyReplace_single_id ' ' ['-'] l h1, pyReplace_single_id '(' [] l h2,
    pyReplace_single_id ')' [] l h3]

/-- C10: the filename sanitizer is idempotent, and its output contains no
space and no parenthesis characters. -/
theorem sanitize_filename_idempotent_and_clean (s : List Char) :
    sanitize_filename (sanitize_filename s) = sanitize_filename s ∧
      ' ' ∉ sanitize_filename s ∧
      '(' ∉ sanitize_filename s ∧
      ')' ∉ sanitize_filename s :=
  ⟨sanitize_filename_id_of_clean _ (space_not_mem_sanitize s)
      (lparen_not_mem_sanitize s) (rparen_not_mem_sanitize s),
    space_not_mem_sanitize s, lparen_not_mem_sanitize s,
    rparen_not_mem_sanitize s⟩

/-! ### Cover-image validation.

Source: `check_metadata.py`, `check_cover_image` (lines 99-117). The
filesystem is passed explicitly: `fsExists` models `os.path.exists`,
`fsSize` models `os.path.getsize`. The human-readable message strings of
the source are modelled by the tagged type `CoverMsg` (the source formats
the size with float formatting; only the tag and payload matter here). -/

/-- Last path component, as `os.path.basename` / `pathlib` compute it for
the paths the script handles. -/
def afterLastSlash (l : List Char) : List Char :=
  l.foldl (fun acc c => if c = '/' then [] else acc ++ [c]) []

/-- Index of the last occurrence of `c`, like Python's `str.rfind`. -/
def rfindIdx (c : Char) (l : List Char) : Option Nat :=
  match l.reverse.findIdx? (· == c) with
  | none => none
  | some j => some (l.length - 1 - j)

/-- Embedding of `pathlib.PurePath(path).suffix`: the extension of the last
component, empty unless the last dot is at an interior position. -/
def pySuffix (path : List Char) : List Char :=
  let base := afterLastSlash path
  match rfindIdx '.' base with
  | none => []
  | some i => if 0 < i ∧ i + 1 < base.length then base.drop i else []

/-- Outcome messages of `check_cover_image`, one constructor per `return`
site of the source. -/
inductive CoverMsg where
  | noPath : CoverMsg
  | notFound : CoverMsg
  | tooLarge (size : Nat) : CoverMsg
  | badFormat (ext : List Char) : CoverMsg
  | ok : CoverMsg
deriving DecidableEq

/-- Accepted cover extensions: `['.jpg', '.jpeg', '.png']`. -/
def allowedCoverExts : List (List Char) := [".jpg".data, ".jpeg".data, ".png".data]

/-- Embedding of `check_cover_image(cover_path)`: empty path, missing file,
size above 5 MiB, or an extension other than jpg/jpeg/png (case-insensitive)
fail; otherwise the image passes. -/
def check_cover_image (cover_path : List Char) (fsExists : Bool) (fsSize : Nat) :
    Bool × CoverMsg :=
  if cover_path = [] then (false, CoverMsg.noPath)
  else if fsExists = false then (false, CoverMsg.notFound)
  else if 5 * 1024 * 1024 < fsSize then (false, CoverMsg.tooLarge fsSize)
  else if (pySuffix cover_path).map Char.toLower ∈ allowedCoverExts then
    (true, CoverMsg.ok)
  else (false, CoverMsg.badFormat ((pySuffix cover_path).map Char.toLower))

/-- C6: cover validation fails exactly for an empty path, a missing file, a
size above 5 MiB, or a non jpg/jpeg/png extension; a 6 MiB file fails with
the size-exceeded reason and a 2 MiB PNG passes. -/
theorem cover_image_validation (path : List Char) (ex : Bool) (size : Nat) :
    ((check_cover_image path ex size).1 = false ↔
      (path = [] ∨ ex = false ∨ 5 * 1024 * 1024 < size ∨
        (pySuffix path).map Char.toLower ∉ allowedCoverExts)) ∧
    (path ≠ [] → ex = true →
      check_cover_image path ex (6 * 1024 * 1024) =
        (false, CoverMsg.tooLarge (6 * 1024 * 1024))) ∧
    check_cover_image "cover.png".data true (2 * 1024 * 1024) =
      (true, CoverMsg.ok) := by
  refine ⟨?_, ?_, by decide⟩
  · unfold check_cover_image
    split_ifs with h1 h2 h3 h4 <;> simp_all
  · intro h1 h2
    subst h2
    unfold check_cover_image
    simp [h1]

/-- Witness for C6 at concrete inputs. -/
theorem cover_image_validation_witness :
    check_cover_image "cover.png".data true (6 * 1024 * 1024) =
        (false, CoverMsg.tooLarge (6 * 1024 * 1024)) ∧
      check_cover_image "cover.png".data true (2 * 1024 * 1024) =
        (true, CoverMsg.ok) :=
  ⟨(cover_image_validation "cover.png".data true 0).2.1 (by decide) rfl,
    (cover_image_validation "cover.png".data true 0).2.2⟩

/-! ### Archive assembly.

Source: `create_epub_complete.py`, `create_mimetype` (lines 91-95) and
`create_epub_file` (lines 1241-1280). A ZIP archive is modelled as the list
of its entries in physical write order; `zipWrite` appends one entry, as
`zipfile.ZipFile.write` does on an archive opened for writing. -/

/-- Compression method of a ZIP entry (`ZIP_STORED` / `ZIP_DEFLATED`). -/
inductive ZMethod where
  | stored : ZMethod
  | deflated : ZMethod
deriving DecidableEq

/-- One physical ZIP entry. -/
structure ZipEntry where
  name : String
  method : ZMethod
  content : String
deriving DecidableEq

/-- Appending write, as performed by `ZipFile.write` on an open archive. -/
def zipWrite (ar : List ZipEntry) (e : ZipEntry) : List ZipEntry := ar ++ [e]

/-- Content written by `create_mimetype` into `epub_build/mimetype`. -/
def mimetypeContent : String := "application/epub+zip"

/-- Entries written by `create_epub_file`: first the `mimetype` file with
`compress_type=zipfile.ZIP_STORED`, then the META-INF walk, then the OEBPS
walk, both with the archive default `ZIP_DEFLATED`. `metaInf` and `oebps`
are the archive paths produced by the two `os.walk` loops, `contentOf`
gives each file's bytes. -/
def create_epub_file_archive (metaInf oebps : List String)
    (contentOf : String → String) : List ZipEntry :=
  let ar0 := zipWrite [] ⟨"mimetype", ZMethod.stored, mimetypeContent⟩
  let ar1 := metaInf.foldl (fun a f => zipWrite a ⟨f, ZMethod.deflated, contentOf f⟩) ar0
  oebps.foldl (fun a f => zipWrite a ⟨f, ZMethod.deflated, contentOf f⟩) ar1

/-- Verification step of `create_epub_file` (lines 1268-1274): reopen the
archive, take its name list, and warn when the first entry is not
`mimetype`. Returns `true` when the warning branch is taken. -/
def epub_order_check (file_list : List String) : Bool :=
  decide (file_list.head? ≠ some "mimetype")

/-- Tail of `create_epub_file` (lines 1268-1280): the self-check only
prints, then the function falls through and returns the output path in
every case. First component: whether the ordering warning was emitted. -/
def epub_finalize (file_list : List String) (output_name : String) :
    Bool × String :=
  (epub_order_check file_list, output_name)

/-- Full result of `create_epub_file`: the written archive, the warning
flag of the reopen self-check, and the returned output path. -/
def create_epub_file (metaInf oebps : List String) (contentOf : String → String)
    (output_name : String) : List ZipEntry × (Bool × String) :=
  let ar := create_epub_file_archive metaInf oebps contentOf
  (ar, epub_finalize (ar.map ZipEntry.name) output_name)

theorem foldl_zipWrite (g : String → ZipEntry) :
    ∀ (fs : List String) (a : List ZipEntry),
      fs.foldl (fun a f => zipWrite a (g f)) a = a ++ fs.map g := by
  intro fs
  induction fs with
  | nil => intro a; simp
  | cons f t ih =>
    intro a
    rw [List.foldl_cons, ih]
    simp [zipWrite]

theorem create_epub_file_archive_eq (metaInf oebps : List String)
    (contentOf : String → String) :
    create_epub_file_archive metaInf oebps contentOf =
      ⟨"mimetype", ZMethod.stored, mimetypeContent⟩ ::
        (metaInf ++ oebps).map (fun f => ⟨f, ZMethod.deflated, contentOf f⟩) := by
  unfold create_epub_file_archive
  rw [foldl_zipWrite (fun f => ⟨f, ZMethod.deflated, contentOf f⟩),
    foldl_zipWrite (fun f => ⟨f, ZMethod.deflated, contentOf f⟩)]
  simp [zipWrite]

/-- C2: in every produced archive the first physical entry is named
`mimetype`, is stored uncompressed, and contains the literal text
`application/epub+zip`; all entries from the content walks come after it. -/
theorem archive_mimetype_first_stored (metaInf oebps : List String)
    (contentOf : String → String) :
    (create_epub_file_archive metaInf oebps contentOf).head? =
        some ⟨"mimetype", ZMethod.stored, "application/epub+zip"⟩ ∧
      (create_epub_file_archive metaInf oebps contentOf).tail =
        (metaInf ++ oebps).map (fun f => ⟨f, ZMethod.deflated, contentOf f⟩) := by
  rw [create_epub_file_archive_eq]
  exact ⟨rfl, rfl⟩

/-- C8: when the reopened archive's first entry is not `mimetype`, the
self-check reports the violation but does not abort — the output path is
still returned. -/
theorem archive_order_violation_warn_but_return (file_list : List String)
    (output_name : String) (h : file_list.head? ≠ some "mimetype") :
    epub_finalize file_list output_name = (true, output_name) := by
  unfold epub_finalize epub_order_check
  simp [h]

/-- Witness for C8: a concrete mis-ordered name list. -/
theorem archive_order_violation_warn_but_return_witness :
    epub_finalize ["META-INF/container.xml", "mimetype"]
        "Escape_The_Hell_Myth_KDP.epub" =
      (true, "Escape_The_Hell_Myth_KDP.epub") :=
  archive_order_violation_warn_but_return _ _ (by decide)

/-! ### Manifest and spine construction, `create_epub_complete.py` variant.

Source: `create_content_opf` (lines 1005-1110). The build tree that the
function inspects on disk is passed as a `BuildState`: whether
`OEBPS/cover.xhtml` exists, the stems of the `*.xhtml` files in
`OEBPS/Text` (in the sorted order the source iterates them), the file
names in `OEBPS/images` (sorted likewise), and the metadata's cover-image
path. -/

/-- Embedding of `re.sub(r'[^a-zA-Z0-9_]', '_', s)`. -/
def safeId (s : String) : String :=
  ⟨s.data.map (fun c => if c.isAlpha || c.isDigit || c == '_' then c else '_')⟩

/-- Embedding of `pathlib.PurePath(path).stem`: last component minus its
suffix. -/
def pyStem (path : List Char) : List Char :=
  let base := afterLastSlash path
  base.take (base.length - (pySuffix path).length)

/-- Declared spine sequence `SPINE_ORDER` of `create_epub_complete.py`
(lines 44-66). -/
def SPINE_ORDER : List String :=
  ["cover", "copyright", "dedication", "toc", "introduction", "part1",
    "chapter1", "chapter2", "part2", "chapter3", "part3", "chapter4",
    "chapter5", "part4", "chapter6", "chapter7", "chapter8", "conclusion",
    "other-books", "appendix", "bibliography"]

/-- Build tree facts consulted by `create_content_opf`. -/
structure BuildState where
  coverExists : Bool
  textStems : List String
  imageFiles : List String
  coverMetaPath : String

/-- Media type chosen for an image file (lines 1037-1048); `none` models
the `continue` that skips unrecognized extensions. -/
def imageMediaType (name : String) : Option String :=
  let ext : String := ⟨(pySuffix name.data).map Char.toLower⟩
  if ext = ".jpg" ∨ ext = ".jpeg" then some "image/jpeg"
  else if ext = ".png" then some "image/png"
  else if ext = ".gif" then some "image/gif"
  else if ext = ".svg" then some "image/svg+xml"
  else none

/-- Candidate id with numeric suffix, Python `f"{base}_{counter}"`. -/
def idCandidate (base : String) (i : Nat) : String :=
  base ++ "_" ++ ⟨natChars i⟩

/-- Embedding of the collision loop (lines 1052-1056): try `base`, then
`base_1`, `base_2`, … and keep the first candidate not in `used`. The
search range `used.length + 1` always contains a free candidate, so the
final fallback branch is never taken (`freshId_not_mem`). -/
def freshId (base : String) (used : List String) : String :=
  if base ∈ used then
    match ((List.range (used.length + 1)).map
        (fun i => idCandidate base (i + 1))).find? (fun c => decide (c ∉ used)) with
    | some c => c
    | none => base
  else base

/-- Reserved ids seeding the used-id set (line 1033). -/
def reservedIds : List String := ["cover", "cover_image", "ncx", "nav", "css"]

/-- Image manifest ids, in order (lines 1036-1063): unrecognized extensions
are skipped; otherwise a collision-free id is derived from the sanitized
stem and recorded in `used`; the file whose name equals the sanitized cover
basename is emitted under the reserved id `cover_image` instead. -/
def assignImageIds (coverName : String) : List String → List String → List String
  | [], _ => []
  | img :: rest, used =>
    if (imageMediaType img).isSome then
      (if img = coverName then "cover_image"
        else freshId (safeId ⟨pyStem img.data⟩) used) ::
        assignImageIds coverName rest (freshId (safeId ⟨pyStem img.data⟩) used :: used)
    else assignImageIds coverName rest used

/-- Sanitized basename of the metadata cover path (line 1034). -/
def coverFilename (st : BuildState) : String :=
  ⟨sanitize_filename (afterLastSlash st.coverMetaPath.data)⟩

/-- Ids of all manifest items of the produced package document, in document
order: the fixed `ncx`/`nav`/`css` items of the template (lines 1096-1098),
the `cover` item when `cover.xhtml` exists (lines 1022-1023), one item per
Text document with sanitized stem as id (lines 1026-1030), then the image
items. -/
def manifestIds (st : BuildState) : List String :=
  ["ncx", "nav", "css"] ++
    (if st.coverExists then ["cover"] else []) ++
    st.textStems.map safeId ++
    assignImageIds (coverFilename st) st.imageFiles reservedIds

/-- Per-id spine emission (lines 1066-1073): `cover` when `cover.xhtml`
exists, otherwise an itemref with the sanitized id when
`Text/{item_id}.xhtml` exists, otherwise nothing. -/
def spineEmit (st : BuildState) (item_id : String) : Option String :=
  if item_id = "cover" ∧ st.coverExists then some "cover"
  else if item_id ∈ st.textStems then some (safeId item_id)
  else none

/-- Idrefs of the emitted spine, in order. -/
def spineIdrefs (st : BuildState) : List String :=
  SPINE_ORDER.filterMap (spineEmit st)

/-- Whether the XHTML document corresponding to a spine id exists in the
build tree. -/
def docExists (st : BuildState) (id : String) : Bool :=
  if id = "cover" then st.coverExists else decide (id ∈ st.textStems)

/-- Idref under which a spine id is referenced. -/
def idrefOf (id : String) : String :=
  if id = "cover" then "cover" else safeId id

theorem freshId_not_mem (base : String) (used : List String) :
    freshId base used ∉ used := by
  unfold freshId
  split
  · next hbase =>
    set cands := (List.range (used.length + 1)).map
      (fun i => idCandidate base (i + 1)) with hcands
    rcases hfind : cands.find? (fun c => decide (c ∉ used)) with _ | c
    · exfalso
      have hall : ∀ c ∈ cands, c ∈ used := by
        intro c hc
        have := List.find?_eq_none.mp hfind c hc
        simpa using this
      have hnodup : cands.Nodup := by
        rw [hcands]
        refine List.Nodup.map_on ?_ (List.nodup_range _)
        intro i _ j _ hij
        have : (idCandidate base (i + 1)).data = (idCandidate base (j + 1)).data := by
          rw [hij]
        simp only [idCandidate, String.data_append] at this
        have h2 := List.append_cancel_left this
        have := natChars_injective h2
        omega
      have hsub : cands ⊆ used := hall
      have hle := (hnodup.subperm hsub).length_le
      simp [hcands] at hle
    · have := List.find?_some hfind
      simpa using this
  · next hbase => exact hbase

/-- Identifier character-set check: letters, digits, underscore. -/
def idOk (s : String) : Bool :=
  s.data.all (fun c => c.isAlpha || c.isDigit || c == '_')

theorem idOk_safeId (s : String) : idOk (safeId s) = true := by
  simp only [idOk, safeId, List.all_eq_true]
  intro c hc
  simp only [List.mem_map] at hc
  obtain ⟨a, _, ha⟩ := hc
  by_cases h : a.isAlpha || a.isDigit || a == '_'
  · rw [← ha]; simp [h]
  · rw [← ha]; simp [h]

theorem idOk_append (s t : String) (hs : idOk s = true) (ht : idOk t = true) :
    idOk (s ++ t) = true := by
  simp only [idOk, List.all_eq_true, String.data_append, List.mem_append] at *
  rintro c (hc | hc)
  · exact hs c hc
  · exact ht c hc

theorem idOk_idCandidate (base : String) (i : Nat) (hb : idOk base = true) :
    idOk (idCandidate base i) = true := by
  unfold idCandidate
  refine idOk_append _ _ (idOk_append _ _ hb (by decide)) ?_
  simp only [idOk, List.all_eq_true]
  intro c hc
  have := natChars_mem_isDigit i c hc
  simp [this]

theorem idOk_freshId (base : String) (used : List String) (hb : idOk base = true) :
    idOk (freshId base used) = true := by
  unfold freshId
  split
  · rcases hfind : (((List.range (used.length + 1)).map
        (fun i => idCandidate base (i + 1))).find? (fun c => decide (c ∉ used)))
        with _ | c
    · exact hb
    · have hmem := List.mem_of_find?_eq_some hfind
      simp only [List.mem_map] at hmem
      obtain ⟨i, _, hi⟩ := hmem
      rw [← hi]
      exact idOk_idCandidate base (i + 1) hb
  · exact hb

theorem assignImageIds_invariant (coverName : String) :
    ∀ (imgs used : List String), imgs.Nodup → "cover_image" ∈ used →
      (assignImageIds coverName imgs used).Nodup ∧
      (∀ e ∈ assignImageIds coverName imgs used, e = "cover_image" ∨ e ∉ used) ∧
      (coverName ∉ imgs → "cover_image" ∉ assignImageIds coverName imgs used) := by
  intro imgs
  induction imgs with
  | nil => intro used _ _; simp [assignImageIds]
  | cons img rest ih =>
    intro used hnd hci
    have hnd' : rest.Nodup := hnd.of_cons
    have himg : img ∉ rest := (List.nodup_cons.mp hnd).1
    by_cases hrec : (imageMediaType img).isSome
    · have hfree : freshId (safeId ⟨pyStem img.data⟩) used ∉ used :=
        freshId_not_mem _ _
      set fid := freshId (safeId ⟨pyStem img.data⟩) used with hfid
      have hci2 : "cover_image" ∈ fid :: used := List.mem_cons_of_mem _ hci
      obtain ⟨ih1, ih2, ih3⟩ := ih (fid :: used) hnd' hci2
      have hfid_ne : fid ≠ "cover_image" := fun h => hfree (h ▸ hci)
      have heq : assignImageIds coverName (img :: rest) used =
          (if img = coverName then "cover_image" else fid) ::
            assignImageIds coverName rest (fid :: used) := by
        simp only [assignImageIds]
        rw [if_pos hrec]
      rw [heq]
      by_cases hcov : img = coverName
      · rw [if_pos hcov]
        have htail : "cover_image" ∉ assignImageIds coverName rest (fid :: used) :=
          ih3 (by rw [← hcov]; exact himg)
        refine ⟨List.nodup_cons.mpr ⟨htail, ih1⟩, ?_, ?_⟩
        · intro e he
          rcases List.mem_cons.mp he with he1 | he2
          · exact Or.inl he1
          · rcases ih2 e he2 with h | h
            · exact Or.inl h
            · exact Or.inr fun hm => h (List.mem_cons_of_mem _ hm)
        · intro hcn
          exact absurd (by rw [← hcov]; exact List.mem_cons_self _ _) hcn
      · rw [if_neg hcov]
        have htail : fid ∉ assignImageIds coverName rest (fid :: used) := by
          intro hmem
          rcases ih2 fid hmem with h | h
          · exact hfid_ne h
          · exact h (List.mem_cons_self _ _)
        refine ⟨List.nodup_cons.mpr ⟨htail, ih1⟩, ?_, ?_⟩
        · intro e he
          rcases List.mem_cons.mp he with he1 | he2
          · subst he1; exact Or.inr hfree
          · rcases ih2 e he2 with h | h
            · exact Or.inl h
            · exact Or.inr fun hm => h (List.mem_cons_of_mem _ hm)
        · intro hcn hmem
          rcases List.mem_cons.mp hmem with h | h
          · exact hfid_ne h.symm
          · have hcr : coverName ∉ rest := fun hr => hcn (List.mem_cons_of_mem _ hr)
            exact ih3 hcr h
    · have heq : assignImageIds coverName (img :: rest) used =
          assignImageIds coverName rest used := by
        simp only [assignImageIds]
        rw [if_neg hrec]
      rw [heq]
      obtain ⟨ih1, ih2, ih3⟩ := ih used hnd' hci
      exact ⟨ih1, ih2, fun hcn => ih3 (fun h => hcn (List.mem_cons_of_mem _ h))⟩

theorem assignImageIds_idOk (coverName : String) :
    ∀ (imgs used : List String), ∀ e ∈ assignImageIds coverName imgs used,
      idOk e = true := by
  intro imgs
  induction imgs with
  | nil => intro used e he; simp [assignImageIds] at he
  | cons img rest ih =>
    intro used e he
    by_cases hrec : (imageMediaType img).isSome
    · rw [show assignImageIds coverName (img :: rest) used =
          (if img = coverName then "cover_image"
            else freshId (safeId ⟨pyStem img.data⟩) used) ::
            assignImageIds coverName rest
              (freshId (safeId ⟨pyStem img.data⟩) used :: used) by
          simp only [assignImageIds]; rw [if_pos hrec]] at he
      rcases List.mem_cons.mp he with he1 | he2
      · subst he1
        by_cases hcov : img = coverName
        · rw [if_pos hcov]
          decide
        · rw [if_neg hcov]
          exact idOk_freshId _ _ (idOk_safeId _)
      · exact ih _ e he2
    · rw [show assignImageIds coverName (img :: rest) used =
          assignImageIds coverName rest used by
          simp only [assignImageIds]; rw [if_neg hrec]] at he
      exact ih _ e he

/-- The charset property of the `create_epub_complete.py` variant: every
manifest id consists only of letters, digits and underscore. -/
theorem manifestIds_charset (st : BuildState) :
    ∀ id ∈ manifestIds st, idOk id = true := by
  intro id hid
  unfold manifestIds at hid
  simp only [List.mem_append] at hid
  rcases hid with ((hfix | hcov) | htext) | himg
  · fin_cases hfix <;> decide
  · rcases hcv : st.coverExists with _ | _
    · rw [hcv] at hcov; simp at hcov
    · rw [hcv] at hcov
      simp at hcov
      subst hcov
      decide
  · simp only [List.mem_map] at htext
    obtain ⟨s, _, hs⟩ := htext
    rw [← hs]
    exact idOk_safeId s
  · exact assignImageIds_idOk _ _ _ id himg

/-- Concrete build state on which the original C3 claim fails: an image
named like an existing chapter document. -/
def collisionState : BuildState :=
  ⟨true, ["chapter1"], ["chapter1.jpg"], "cover.jpg"⟩

/-- Counterexample to C3 as stated: with chapter document `chapter1.xhtml`
present and an image `chapter1.jpg` in the images directory, the produced
package document carries two manifest items with id `chapter1`. -/
theorem manifest_duplicate_id_counterexample :
    ¬ (manifestIds collisionState).Nodup := by decide

theorem filterMap_eq_map_filter {α β : Type} (f : α → Option β) (p : α → Bool)
    (g : α → β) :
    ∀ l : List α, (∀ x ∈ l, f x = if p x then some (g x) else none) →
      l.filterMap f = (l.filter p).map g := by
  intro l
  induction l with
  | nil => intro _; simp
  | cons x t ih =>
    intro hpt
    have hx := hpt x (List.mem_cons_self _ _)
    have ht := fun y hy => hpt y (List.mem_cons_of_mem _ hy)
    rcases hp : p x with _ | _
    · rw [hp] at hx
      simp only [if_neg Bool.false_ne_true] at hx
      simp [List.filterMap_cons, hx, List.filter_cons, hp, ih ht]
    · rw [hp] at hx
      simp only [if_pos rfl] at hx
      simp [List.filterMap_cons, hx, List.filter_cons, hp, ih ht]

theorem spineEmit_eq (st : BuildState) (hcov : "cover" ∉ st.textStems)
    (id : String) :
    spineEmit st id = if docExists st id then some (idrefOf id) else none := by
  unfold spineEmit docExists idrefOf
  by_cases h1 : id = "cover"
  · subst h1
    rcases hc : st.coverExists with _ | _
    · simp [hc, hcov]
    · simp [hc]
  · by_cases h2 : id ∈ st.textStems
    · simp [h1, h2]
    · simp [h1, h2]

/-- C1 (amended, `create_epub_complete.py` variant): the emitted spine
contains exactly one itemref, in declared order, for each id of the fixed
spine sequence whose XHTML document exists in the build tree, missing
documents being silently omitted, and every emitted idref names a manifest
item of the same package document. In the `create_both_epubs.py` variant
this fails: its spine lists every declared id unconditionally (see
`spine_missing_doc_counterexample`). -/
theorem spine_exact_and_manifest_refs (st : BuildState)
    (hcov : "cover" ∉ st.textStems) :
    spineIdrefs st =
        (SPINE_ORDER.filter (fun id => docExists st id)).map idrefOf ∧
      (spineIdrefs st).Nodup ∧
      ∀ r ∈ spineIdrefs st, r ∈ manifestIds st := by
  have heq : spineIdrefs st =
      (SPINE_ORDER.filter (fun id => docExists st id)).map idrefOf :=
    filterMap_eq_map_filter (spineEmit st) (fun id => docExists st id) idrefOf
      SPINE_ORDER (fun id _ => spineEmit_eq st hcov id)
  have hnd : (spineIdrefs st).Nodup := by
    rw [heq]
    have hsub : ((SPINE_ORDER.filter (fun id => docExists st id)).map idrefOf).Sublist
        (SPINE_ORDER.map idrefOf) :=
      (List.filter_sublist _).map idrefOf
    have hbig : (SPINE_ORDER.map idrefOf).Nodup := by decide
    exact hbig.sublist hsub
  refine ⟨heq, hnd, ?_⟩
  intro r hr
  rw [heq] at hr
  simp only [List.mem_map, List.mem_filter] at hr
  obtain ⟨id, ⟨_, hex⟩, hid⟩ := hr
  subst hid
  unfold manifestIds
  by_cases h1 : id = "cover"
  · subst h1
    unfold docExists at hex
    have hce : st.coverExists = true := by simpa using hex
    simp [idrefOf, hce]
  · unfold docExists at hex
    rw [if_neg h1] at hex
    have hmem : id ∈ st.textStems := of_decide_eq_true hex
    have : idrefOf id ∈ st.textStems.map safeId := by
      simp only [List.mem_map]
      exact ⟨id, hmem, by simp [idrefOf, h1]⟩
    simp only [List.mem_append]
    exact Or.inl (Or.inr this)

/-- Witness for C1 at a concrete build state (cover present, two chapter
documents, one of the declared sections missing). -/
theorem spine_exact_and_manifest_refs_witness :
    spineIdrefs ⟨true, ["copyright", "chapter1"], [], "cover.jpg"⟩ =
        (SPINE_ORDER.filter (fun id =>
          docExists ⟨true, ["copyright", "chapter1"], [], "cover.jpg"⟩ id)).map
          idrefOf ∧
      (spineIdrefs ⟨true, ["copyright", "chapter1"], [], "cover.jpg"⟩).Nodup ∧
      ∀ r ∈ spineIdrefs ⟨true, ["copyright", "chapter1"], [], "cover.jpg"⟩,
        r ∈ manifestIds ⟨true, ["copyright", "chapter1"], [], "cover.jpg"⟩ :=
  spine_exact_and_manifest_refs
    ⟨true, ["copyright", "chapter1"], [], "cover.jpg"⟩ (by decide)

/-! ### Manifest and spine construction, `create_both_epubs.py` variant.

Source: `create_both_epubs.py`, `create_content_opf` (lines 314-429). This
variant emits the spine unconditionally and never sanitizes document ids. -/

/-- Declared spine sequence `CORRECT_SPINE_ORDER` of `create_both_epubs.py`
(lines 43-66). -/
def CORRECT_SPINE_ORDER : List String :=
  ["cover", "copyright", "dedication", "toc", "introduction", "part1",
    "chapter1", "chapter2", "part2", "chapter3", "part3", "chapter4",
    "chapter5", "part4", "chapter6", "chapter7", "chapter8", "conclusion",
    "other-books", "appendix", "bibliography", "acknowledgments"]

/-- Spine idrefs of the `create_both_epubs.py` variant (lines 349-351): one
itemref per declared id, with no existence check. -/
def spineIdrefsBoth : List String := CORRECT_SPINE_ORDER

/-- Build tree facts consulted by the `create_both_epubs.py` variant. -/
structure BuildStateB where
  coverExists : Bool
  textStems : List String
  imageFiles : List String
  coverMeta : String

/-- Image base id of the variant (line 367):
`stem.replace('-', '_').replace(' ', '_')`. -/
def baseIdBoth (stem : List Char) : String :=
  ⟨pyReplace ' ' [] ['_'] (pyReplace '-' [] ['_'] stem)⟩

/-- Image manifest ids of the variant (lines 354-385): the cover file is
skipped (already declared as `cover-image`), every other image gets a
collision-free id from the same incrementing-suffix loop. -/
def assignImageIdsBoth (coverName : String) :
    List String → List String → List String
  | [], _ => []
  | img :: rest, used =>
    if img = coverName then assignImageIdsBoth coverName rest used
    else
      freshId (baseIdBoth (pyStem img.data)) used ::
        assignImageIdsBoth coverName rest
          (freshId (baseIdBoth (pyStem img.data)) used :: used)

/-- Manifest ids of the package document produced by the variant, in
document order: the fixed `cover-image` item of the template (line 415),
`cover` when `cover.xhtml` exists, the raw stems of the Text documents
(line 346), the image items, then `css` and `ncx` (lines 388-391). -/
def manifestIdsBoth (st : BuildStateB) : List String :=
  "cover-image" ::
    ((if st.coverExists then ["cover"] else []) ++
      st.textStems ++
      assignImageIdsBoth ⟨afterLastSlash st.coverMeta.data⟩ st.imageFiles
        ["cover", "cover-image"] ++
      ["css", "ncx"])

/-- Counterexample to C1 as stated: in the `create_both_epubs.py` variant,
with the `acknowledgments` document absent from the build tree, the spine
still emits an itemref `acknowledgments`, and no manifest item of the same
package document carries that id. -/
theorem spine_missing_doc_counterexample :
    "acknowledgments" ∈ spineIdrefsBoth ∧
      "acknowledgments" ∉
        (BuildStateB.mk true ["copyright"] [] "cover.jpg").textStems ∧
      "acknowledgments" ∉
        manifestIdsBoth ⟨true, ["copyright"], [], "cover.jpg"⟩ := by
  refine ⟨by decide, by decide, ?_⟩
  decide

/-- Fixed source-file list `FILES_TO_PROCESS` of `create_both_epubs.py`
(lines 23-41): every build converts these documents, so their stems become
manifest document ids. -/
def FILES_TO_PROCESS : List String :=
  ["copyright.html", "dedication.html", "toc.html", "introduction.html",
    "part1.html", "chapter1.html", "chapter2.html", "part2.html",
    "chapter3.html", "part3.html", "chapter4.html", "chapter5.html",
    "part4.html", "chapter6.html", "chapter7.html", "chapter8.html",
    "conclusion.html", "other-books.html", "appendix.html",
    "bibliography.html", "acknowledgments.html"]

/-- The incrementing-suffix loop of the `create_both_epubs.py` variant
produces image ids that are pairwise distinct and avoid the used-id set it
was started with. -/
theorem assignImageIdsBoth_invariant (coverName : String) :
    ∀ (imgs used : List String),
      (assignImageIdsBoth coverName imgs used).Nodup ∧
      (∀ e ∈ assignImageIdsBoth coverName imgs used, e ∉ used) := by
  intro imgs
  induction imgs with
  | nil => intro used; simp [assignImageIdsBoth]
  | cons img rest ih =>
    intro used
    by_cases hcov : img = coverName
    · rw [show assignImageIdsBoth coverName (img :: rest) used =
          assignImageIdsBoth coverName rest used by
        simp only [assignImageIdsBoth]; rw [if_pos hcov]]
      exact ih used
    · rw [show assignImageIdsBoth coverName (img :: rest) used =
          freshId (baseIdBoth (pyStem img.data)) used ::
            assignImageIdsBoth coverName rest
              (freshId (baseIdBoth (pyStem img.data)) used :: used) by
        simp only [assignImageIdsBoth]; rw [if_neg hcov]]
      set fid := freshId (baseIdBoth (pyStem img.data)) used with hfid
      obtain ⟨ih1, ih2⟩ := ih (fid :: used)
      have hfree : fid ∉ used := freshId_not_mem _ _
      have htail : fid ∉ assignImageIdsBoth coverName rest (fid :: used) :=
        fun hm => ih2 fid hm (List.mem_cons_self _ _)
      refine ⟨List.nodup_cons.mpr ⟨htail, ih1⟩, ?_⟩
      intro e he
      rcases List.mem_cons.mp he with he1 | he2
      · subst he1; exact hfree
      · exact fun hm => ih2 e he2 (List.mem_cons_of_mem _ hm)

/-- C3 (amended): in the `create_epub_complete.py` builder every manifest
id consists only of letters, digits and underscore, and the image ids are
pairwise distinct and collide neither with each other nor (apart from the
designated cover image, which receives the reserved id `cover_image`) with
the reserved-id seed; package-wide uniqueness fails because image ids are
never checked against document ids (see
`manifest_duplicate_id_counterexample`). In the `create_both_epubs.py`
builder, which the claim also covers, the suffix-dedup loop still makes
the image ids pairwise distinct and disjoint from its used-id seed
`{cover, cover-image}`, but the charset property fails: the package
template always emits an item with id `cover-image`, and document items
carry the raw filename stem as id, so the fixed source file
`other-books.html` yields the non-conforming id `other-books` in every
build. -/
theorem manifest_ids_charset_and_image_uniqueness (st : BuildState)
    (h : st.imageFiles.Nodup) (stB : BuildStateB) :
    ((∀ id ∈ manifestIds st, idOk id = true) ∧
      (assignImageIds (coverFilename st) st.imageFiles reservedIds).Nodup ∧
      (∀ id ∈ assignImageIds (coverFilename st) st.imageFiles reservedIds,
        id = "cover_image" ∨ id ∉ reservedIds)) ∧
    ((assignImageIdsBoth ⟨afterLastSlash stB.coverMeta.data⟩ stB.imageFiles
        ["cover", "cover-image"]).Nodup ∧
      (∀ id ∈ assignImageIdsBoth ⟨afterLastSlash stB.coverMeta.data⟩
          stB.imageFiles ["cover", "cover-image"],
        id ∉ ["cover", "cover-image"])) ∧
    ("cover-image" ∈ manifestIdsBoth stB ∧ idOk "cover-image" = false) ∧
    ((∀ s ∈ stB.textStems, s ∈ manifestIdsBoth stB) ∧
      "other-books.html" ∈ FILES_TO_PROCESS ∧
      idOk ⟨pyStem "other-books.html".data⟩ = false) := by
  obtain ⟨h1, h2, _⟩ := assignImageIds_invariant (coverFilename st)
    st.imageFiles reservedIds h (by decide)
  obtain ⟨hb1, hb2⟩ := assignImageIdsBoth_invariant
    ⟨afterLastSlash stB.coverMeta.data⟩ stB.imageFiles ["cover", "cover-image"]
  refine ⟨⟨manifestIds_charset st, h1, h2⟩, ⟨hb1, hb2⟩,
    ⟨List.mem_cons_self _ _, by decide⟩, ?_, by decide, by decide⟩
  intro s hs
  exact List.mem_cons_of_mem _ (List.mem_append.mpr (Or.inl
    (List.mem_append.mpr (Or.inl (List.mem_append.mpr (Or.inr hs))))))

/-- Witness for C3 at concrete build states of both builders. -/
theorem manifest_ids_charset_witness :
    (["photo 1.png", "cover.jpg"] : List String).Nodup ∧
    (((∀ id ∈ manifestIds ⟨true, ["chapter1"], ["photo 1.png", "cover.jpg"],
          "cover.jpg"⟩, idOk id = true) ∧
      (assignImageIds
          (coverFilename ⟨true, ["chapter1"], ["photo 1.png", "cover.jpg"],
            "cover.jpg"⟩)
          ["photo 1.png", "cover.jpg"] reservedIds).Nodup ∧
      (∀ id ∈ assignImageIds
          (coverFilename ⟨true, ["chapter1"], ["photo 1.png", "cover.jpg"],
            "cover.jpg"⟩)
          ["photo 1.png", "cover.jpg"] reservedIds,
        id = "cover_image" ∨ id ∉ reservedIds)) ∧
    ((assignImageIdsBoth
        ⟨afterLastSlash (BuildStateB.mk true ["chapter1", "other-books"]
          ["img-two.png", "cover.jpg"] "cover.jpg").coverMeta.data⟩
        ["img-two.png", "cover.jpg"] ["cover", "cover-image"]).Nodup ∧
      (∀ id ∈ assignImageIdsBoth
          ⟨afterLastSlash (BuildStateB.mk true ["chapter1", "other-books"]
            ["img-two.png", "cover.jpg"] "cover.jpg").coverMeta.data⟩
          ["img-two.png", "cover.jpg"] ["cover", "cover-image"],
        id ∉ ["cover", "cover-image"])) ∧
    ("cover-image" ∈ manifestIdsBoth ⟨true, ["chapter1", "other-books"],
        ["img-two.png", "cover.jpg"], "cover.jpg"⟩ ∧
      idOk "cover-image" = false) ∧
    ((∀ s ∈ (BuildStateB.mk true ["chapter1", "other-books"]
          ["img-two.png", "cover.jpg"] "cover.jpg").textStems,
        s ∈ manifestIdsBoth ⟨true, ["chapter1", "other-books"],
          ["img-two.png", "cover.jpg"], "cover.jpg"⟩) ∧
      "other-books.html" ∈ FILES_TO_PROCESS ∧
      idOk ⟨pyStem "other-books.html".data⟩ = false)) :=
  ⟨by decide, manifest_ids_charset_and_image_uniqueness
    ⟨true, ["chapter1"], ["photo 1.png", "cover.jpg"], "cover.jpg"⟩
    (by decide)
    ⟨true, ["chapter1", "other-books"], ["img-two.png", "cover.jpg"],
      "cover.jpg"⟩⟩

/-! ### Hyperlink rewriting in the HTML→XHTML converters.

Sources: `create_epub_complete.py`, `convert_html_to_xhtml` (lines 885-897)
and `create_both_epubs.py`, `convert_html_to_xhtml` (lines 162-167). Both
use `href.replace('.html', '.xhtml')`, which replaces every occurrence of
the pattern; only the `create_both_epubs.py` variant guards against
absolute `http`/`https` links. -/

/-- Boolean test that `pat` is a suffix of `l` (Python `str.endswith`). -/
def endsWith (pat l : List Char) : Bool := startsWith pat.reverse l.reverse

theorem endsWith_iff (pat l : List Char) :
    endsWith pat l = true ↔ ∃ t, l = t ++ pat := by
  unfold endsWith
  rw [startsWith_iff]
  constructor
  · rintro ⟨t, ht⟩
    refine ⟨t.reverse, ?_⟩
    have := congrArg List.reverse ht
    simpa [List.reverse_append] using this
  · rintro ⟨t, rfl⟩
    exact ⟨t.reverse, by simp [List.reverse_append]⟩

/-- Link rewriting of the `create_epub_complete.py` converter: every href
ending in `.html` is rewritten with `href.replace('.html', '.xhtml')`
(no external-link guard), with a special case for the cover document. -/
def fixHrefComplete (is_cover : Bool) (href : List Char) : List Char :=
  if href ≠ [] ∧ endsWith ".html".data href then
    if pyReplace '.' "html".data ".xhtml".data href = "index.xhtml".data then
      if is_cover then "cover.xhtml".data else "../cover.xhtml".data
    else pyReplace '.' "html".data ".xhtml".data href
  else href

/-- Link rewriting of the `create_both_epubs.py` converter: only internal
links (not starting with `http`) ending in `.html` are rewritten. -/
def fixHrefBoth (href : List Char) : List Char :=
  if endsWith ".html".data href ∧ ¬ startsWith "http".data href then
    pyReplace '.' "html".data ".xhtml".data href
  else href

theorem pyReplace_html_suffix :
    ∀ (n : Nat) (l : List Char), l.length ≤ n → (∃ t, l = t ++ ".html".data) →
      ∃ t2, pyReplace '.' "html".data ".xhtml".data l = t2 ++ ".xhtml".data := by
  intro n
  induction n with
  | zero =>
    rintro l hn ⟨t, rfl⟩
    simp at hn
  | succ n ih =>
    rintro l hn ⟨t, rfl⟩
    by_cases hs : startsWith ".html".data (t ++ ".html".data) = true
    · obtain ⟨r, hr⟩ := (startsWith_iff _ _).mp hs
      rcases t with _ | ⟨a, _ | ⟨b, _ | ⟨c2, _ | ⟨d, _ | ⟨e, t5⟩⟩⟩⟩⟩
      · refine ⟨[], ?_⟩
        simp only [List.nil_append]
        decide
      · simp at hr
      · simp at hr
      · simp at hr
      · simp at hr
      · have h1 := hr
        simp only [show (".html".data : List Char) = ['.', 'h', 't', 'm', 'l']
          from rfl, List.cons_append, List.nil_append, List.cons.injEq] at h1
        obtain ⟨ha, hb, hc, hd2, he, hshape⟩ := h1
        subst ha hb hc hd2 he
        have hrlen : r.length ≤ n := by
          have hlen := congrArg List.length hshape
          simp only [List.length_append, List.length_cons] at hlen hn
          simp at hlen hn
          omega
        obtain ⟨t2, ht2⟩ := ih r hrlen ⟨t5, hshape.symm⟩
        refine ⟨".xhtml".data ++ t2, ?_⟩
        have hl : ('.' :: 'h' :: 't' :: 'm' :: 'l' :: t5) ++ ".html".data =
            '.' :: ("html".data ++ r) := by
          rw [← hshape]
          rfl
        rw [hl, pyReplace_cons]
        rw [hl] at hs
        rw [if_pos hs]
        have hdrop : ("html".data ++ r).drop (("html".data : List Char)).length
            = r := by simp
        rw [hdrop, ht2]
        simp
    · rcases t with _ | ⟨c, t1⟩
      · exfalso
        exact hs (by decide)
      · have hl : (c :: t1) ++ ".html".data = c :: (t1 ++ ".html".data) := rfl
        rw [hl] at hs ⊢
        rw [pyReplace_cons, if_neg (by simpa using hs)]
        have hlen : (t1 ++ ".html".data).length ≤ n := by
          simp at hn ⊢
          omega
        obtain ⟨t2, ht2⟩ := ih (t1 ++ ".html".data) hlen ⟨t1, rfl⟩
        refine ⟨c :: t2, ?_⟩
        rw [ht2]
        rfl

/-- C4 counterexample: the `create_epub_complete.py` converter rewrites the
absolute external link `https://example.com/page.html` instead of leaving
it unchanged. -/
theorem external_link_rewritten_counterexample :
    fixHrefComplete false "https://example.com/page.html".data =
        "https://example.com/page.xhtml".data ∧
      "https://example.com/page.xhtml".data ≠
        "https://example.com/page.html".data := by
  constructor
  · decide
  · decide

/-- C4 (amended): the `create_both_epubs.py` converter leaves absolute
http/https links completely unchanged and rewrites internal hrefs ending
in `.html` so that they end in `.xhtml`; the `create_epub_complete.py`
converter rewrites every href ending in `.html`, including absolute
external links (see `external_link_rewritten_counterexample`). -/
theorem link_rewrite_behavior (href : List Char) (ic : Bool) :
    (startsWith "http".data href = true → fixHrefBoth href = href) ∧
      (endsWith ".html".data href = true → startsWith "http".data href = false →
        endsWith ".xhtml".data (fixHrefBoth href) = true) ∧
      (href ≠ [] → endsWith ".html".data href = true →
        endsWith ".xhtml".data (fixHrefComplete ic href) = true) := by
  refine ⟨?_, ?_, ?_⟩
  · intro h
    unfold fixHrefBoth
    rw [if_neg]
    simp [h]
  · intro h1 h2
    unfold fixHrefBoth
    rw [if_pos (by simp [h1, h2])]
    obtain ⟨t2, ht2⟩ := pyReplace_html_suffix href.length href (le_refl _)
      ((endsWith_iff _ _).mp h1)
    rw [ht2]
    exact (endsWith_iff _ _).mpr ⟨t2, rfl⟩
  · intro h1 h2
    unfold fixHrefComplete
    rw [if_pos (by exact ⟨h1, h2⟩)]
    obtain ⟨t2, ht2⟩ := pyReplace_html_suffix href.length href (le_refl _)
      ((endsWith_iff _ _).mp h2)
    by_cases hidx : pyReplace '.' "html".data ".xhtml".data href =
        "index.xhtml".data
    · rw [if_pos hidx]
      rcases ic with _ | _
      · decide
      · decide
    · rw [if_neg hidx, ht2]
      exact (endsWith_iff _ _).mpr ⟨t2, rfl⟩

/-- Witness for C4 at concrete hrefs. -/
theorem link_rewrite_behavior_witness :
    fixHrefBoth "https://example.com/page.html".data =
        "https://example.com/page.html".data ∧
      endsWith ".xhtml".data (fixHrefBoth "chapter2.html".data) = true ∧
      endsWith ".xhtml".data (fixHrefComplete false "chapter2.html".data) =
        true :=
  ⟨(link_rewrite_behavior "https://example.com/page.html".data false).1
      (by decide),
    (link_rewrite_behavior "chapter2.html".data false).2.1 (by decide)
      (by decide),
    (link_rewrite_behavior "chapter2.html".data false).2.2 (by decide)
      (by decide)⟩

/-! ### Content-root handling of the HTML→XHTML converters.

Sources: `create_epub_complete.py` lines 829-846 and
`create_both_epubs.py` lines 109-126 with the per-file driver loop of
`create_epub_version` (lines 628-633). A parsed source document is
abstracted to whether `soup.find('body')` succeeds and to the two possible
content roots; the constant XHTML template around the chosen root is
elided. -/

/-- Parsed HTML document as seen by the converters. -/
structure HtmlDoc where
  hasBody : Bool
  bodyContent : String
  wholeContent : String
deriving DecidableEq

/-- Content root chosen by `create_epub_complete.convert_html_to_xhtml`
(lines 843-846): the body if present, otherwise the whole soup. -/
def convert_root_complete (d : HtmlDoc) : String :=
  if d.hasBody then d.bodyContent else d.wholeContent

/-- Embedding of `create_epub_complete.convert_html_to_xhtml`: `None` (with
a printed message) only for a missing file (lines 829-831); a document
without a body is still converted, from the whole-soup root. -/
def convert_html_to_xhtml_complete (fileExists : Bool) (d : HtmlDoc) :
    Option String :=
  if fileExists then some (convert_root_complete d) else none

/-- Embedding of `create_both_epubs.convert_html_to_xhtml` (lines 123-126):
`None` when no body is found, before any output is written. -/
def convert_html_to_xhtml_both (d : HtmlDoc) : Option String :=
  if d.hasBody then some d.bodyContent else none

/-- Driver loop of `create_both_epubs.create_epub_version` (lines 628-633)
over (file name, file exists, parsed document) triples: returns the names
of the documents converted, and the warnings printed. A warning is printed
only for a missing file; a conversion returning `None` is not reported. -/
def processFilesBoth : List (String × Bool × HtmlDoc) → List String × List String
  | [] => ([], [])
  | (name, ex, d) :: rest =>
    if ex then
      match convert_html_to_xhtml_both d with
      | some _ =>
        ((processFilesBoth rest).1.cons name, (processFilesBoth rest).2)
      | none => processFilesBoth rest
    else
      ((processFilesBoth rest).1, (processFilesBoth rest).2.cons name)

/-- C5 counterexample: for an existing source document without a body, the
`create_epub_complete.py` converter does not fail — it produces output from
the whole-soup root — and in the `create_both_epubs.py` pipeline the
skipped document produces no warning. -/
theorem no_body_not_failed_counterexample :
    (convert_html_to_xhtml_complete true ⟨false, "B", "W"⟩).isSome = true ∧
      (processFilesBoth [("introduction.html", true, ⟨false, "B", "W"⟩)]).2
        = [] := by
  constructor
  · rfl
  · rfl

/-- C5 (amended): for a source document in which no body is found, the
`create_both_epubs.py` converter fails (produces no output) and the
document is skipped, but silently — no warning is recorded; the
`create_epub_complete.py` converter does not fail at all: it converts the
document using the whole parsed document as content root. -/
theorem no_body_behavior (d : HtmlDoc) (name : String)
    (h : d.hasBody = false) :
    convert_html_to_xhtml_complete true d = some d.wholeContent ∧
      convert_html_to_xhtml_both d = none ∧
      processFilesBoth [(name, true, d)] = ([], []) := by
  refine ⟨?_, ?_, ?_⟩
  · simp [convert_html_to_xhtml_complete, convert_root_complete, h]
  · simp [convert_html_to_xhtml_both, h]
  · simp [processFilesBoth, convert_html_to_xhtml_both, h]

/-- Witness for C5 at a concrete document. -/
theorem no_body_behavior_witness :
    convert_html_to_xhtml_complete true ⟨false, "B", "W"⟩ = some "W" ∧
      convert_html_to_xhtml_both ⟨false, "B", "W"⟩ = none ∧
      processFilesBoth [("introduction.html", true, ⟨false, "B", "W"⟩)]
        = ([], []) :=
  no_body_behavior ⟨false, "B", "W"⟩ "introduction.html" rfl

/-! ### The metadata resolver.

Source: `check_metadata.py`: `check_required_metadata` (lines 34-50),
`prompt_for_missing_metadata` (lines 52-86) and the merge in `main`
(lines 139-147). The interactive `input()` stream is passed as a list of
strings; a run that exhausts the stream (Python would raise `EOFError`)
is `none`. -/

/-- Embedding of Python `str.strip()` (ASCII whitespace suffices for the
inputs of interest). -/
def pyStrip (s : String) : String :=
  ⟨((s.data.dropWhile Char.isWhitespace).reverse.dropWhile
      Char.isWhitespace).reverse⟩

/-- Required fields with their prompt descriptions (lines 36-42). -/
def required_fields : List (String × String) :=
  [("title", "Book Title"), ("author", "Author Name"),
    ("publisher", "Publisher Name"), ("publication_date", "Publication Year"),
    ("cover_image", "Cover Image Path")]

/-- Optional fields with their prompt descriptions (lines 71-77). -/
def optional_fields : List (String × String) :=
  [("subtitle", "Book Subtitle"), ("tags", "Keywords/Tags (comma-separated)"),
    ("description", "Book Description"), ("language", "Language (default: en)"),
    ("isbn", "ISBN Number")]

/-- Lookup in a metadata record (Python dict access, insertion order). -/
def lookupMeta (md : List (String × String)) (k : String) : Option String :=
  (md.find? (fun p => p.1 == k)).map Prod.snd

/-- Embedding of `check_required_metadata`: a field is missing when absent
or falsy (empty string). -/
def check_required_metadata (md : List (String × String)) :
    List (String × String) :=
  required_fields.filter (fun fd =>
    match lookupMeta md fd.1 with
    | none => true
    | some v => v == "")

/-- One required-field prompt loop (lines 62-67): re-prompt while the
stripped input is empty. Returns the accepted value, the remaining input
stream, and the prompts issued. -/
def promptRequiredLoop (desc : String) : List String →
    Option (String × List String × List String)
  | [] => none
  | v :: rest =>
    if pyStrip v = "" then
      match promptRequiredLoop desc rest with
      | none => none
      | some (val, rem, ps) => some (val, rem, desc :: ps)
    else some (pyStrip v, rest, [desc])

/-- Prompts for all missing required fields, in order. -/
def promptAllRequired : List (String × String) → List String →
    Option (List (String × String) × List String × List String)
  | [], inputs => some ([], inputs, [])
  | (f, desc) :: rest, inputs =>
    match promptRequiredLoop desc inputs with
    | none => none
    | some (val, rem, ps) =>
      match promptAllRequired rest rem with
      | none => none
      | some (md, rem2, ps2) => some ((f, val) :: md, rem2, ps ++ ps2)

/-- Optional-field prompts (lines 69-84): one `input()` each; an empty
answer is skipped except for `language`, which defaults to `en`. -/
def promptOptional : List (String × String) → List String →
    Option (List (String × String) × List String × List String)
  | [], inputs => some ([], inputs, [])
  | (f, desc) :: rest, inputs =>
    match inputs with
    | [] => none
    | v :: rem =>
      match promptOptional rest rem with
      | none => none
      | some (md, rem2, ps) =>
        if pyStrip v ≠ "" then some ((f, pyStrip v) :: md, rem2, desc :: ps)
        else if f = "language" then some ((f, "en") :: md, rem2, desc :: ps)
        else some (md, rem2, desc :: ps)

/-- Embedding of `prompt_for_missing_metadata`: the collected record and
the full list of prompt descriptions issued, in order. -/
def prompt_for_missing_metadata (missing : List (String × String))
    (inputs : List String) :
    Option (List (String × String) × List String) :=
  match promptAllRequired missing inputs with
  | none => none
  | some (md1, rem, ps1) =>
    match promptOptional optional_fields rem with
    | none => none
    | some (md2, _, ps2) => some (md1 ++ md2, ps1 ++ ps2)

/-- Merge of the newly collected record into the loaded one
(`metadata.update(new_metadata)`, line 144): existing keys are updated in
place, new keys appended in insertion order. -/
def pyDictUpdate (md newMd : List (String × String)) :
    List (String × String) :=
  md.map (fun p =>
      match lookupMeta newMd p.1 with
      | some v => (p.1, v)
      | none => p) ++
    newMd.filter (fun p => (lookupMeta md p.1).isNone)

theorem find?_map_fst (g : String × String → String × String)
    (hg : ∀ p, (g p).1 = p.1) (k : String) :
    ∀ md : List (String × String),
      (md.map g).find? (fun p => p.1 == k) =
        (md.find? (fun p => p.1 == k)).map g := by
  intro md
  induction md with
  | nil => rfl
  | cons p t ih =>
    simp only [List.map_cons, List.find?_cons]
    rw [hg p]
    by_cases h : (p.1 == k) = true
    · simp [h]
    · simp [h, ih]

theorem find?_filter_eq (q pfn : String × String → Bool) :
    ∀ l : List (String × String),
      (l.filter q).find? pfn = l.find? (fun a => pfn a && q a) := by
  intro l
  induction l with
  | nil => rfl
  | cons a t ih =>
    by_cases hq : q a = true
    · rw [List.filter_cons_of_pos hq]
      simp only [List.find?_cons]
      by_cases hp : pfn a = true
      · simp [hp, hq]
      · simp [hp, hq, ih]
    · rw [List.filter_cons_of_neg (by simpa using hq)]
      simp only [List.find?_cons]
      simp [hq, ih]

theorem find?_key_and_true (k : String) (pred : String × String → Bool)
    (hpred : ∀ a : String × String, a.1 = k → pred a = true) :
    ∀ l : List (String × String),
      l.find? (fun a => (a.1 == k) && pred a) =
        l.find? (fun a => a.1 == k) := by
  intro l
  induction l with
  | nil => rfl
  | cons a t ih =>
    simp only [List.find?_cons]
    by_cases h : (a.1 == k) = true
    · simp [h, hpred a (by simpa using h)]
    · simp [h, ih]

theorem lookupMeta_append (l1 l2 : List (String × String)) (k : String) :
    lookupMeta (l1 ++ l2) k =
      ((l1.find? (fun p => p.1 == k)).or
        (l2.find? (fun p => p.1 == k))).map Prod.snd := by
  unfold lookupMeta
  rw [List.find?_append]

theorem lookupMeta_pyDictUpdate (md newMd : List (String × String))
    (k v : String) (h : lookupMeta newMd k = some v) :
    lookupMeta (pyDictUpdate md newMd) k = some v := by
  have hg : ∀ p : String × String,
      ((fun p : String × String =>
        match lookupMeta newMd p.1 with
        | some w => (p.1, w)
        | none => p) p).1 = p.1 := by
    intro p
    rcases hl : lookupMeta newMd p.1 with _ | w <;> simp [hl]
  unfold pyDictUpdate
  rw [lookupMeta_append, find?_map_fst _ hg k md]
  rcases hfind : md.find? (fun p => p.1 == k) with _ | pr
  · rw [hfind]
    simp only [Option.map_none', Option.none_or]
    rw [find?_filter_eq, find?_key_and_true k _ ?hp newMd]
    case hp =>
      intro a ha
      rw [ha]
      simp [lookupMeta, hfind]
    unfold lookupMeta at h
    exact h
  · rw [hfind]
    have hk : pr.1 = k := by
      have := List.find?_some hfind
      simpa using this
    simp [hk, h]

theorem promptRequiredLoop_spec (desc : String) :
    ∀ (pre : List String) (v : String) (post : List String),
      (∀ x ∈ pre, pyStrip x = "") → pyStrip v ≠ "" →
      promptRequiredLoop desc (pre ++ v :: post) =
        some (pyStrip v, post, List.replicate (pre.length + 1) desc) := by
  intro pre
  induction pre with
  | nil =>
    intro v post _ hv
    simp [promptRequiredLoop, hv]
  | cons x pre ih =>
    intro v post hpre hv
    have hx : pyStrip x = "" := hpre x (List.mem_cons_self _ _)
    have hih := ih v post (fun y hy => hpre y (List.mem_cons_of_mem _ hy)) hv
    rw [show (x :: pre) ++ v :: post = x :: (pre ++ v :: post) from rfl]
    rw [show promptRequiredLoop desc (x :: (pre ++ v :: post)) =
        (if pyStrip x = "" then
          match promptRequiredLoop desc (pre ++ v :: post) with
          | none => none
          | some (val, rem, ps) => some (val, rem, desc :: ps)
        else some (pyStrip x, pre ++ v :: post, [desc])) from rfl]
    rw [if_pos hx, hih]
    simp [List.replicate_succ]

theorem promptOptional_prompts :
    ∀ (fields : List (String × String)) (inputs : List String),
      fields.length ≤ inputs.length →
      ∃ md rem, promptOptional fields inputs =
        some (md, rem, fields.map Prod.snd) := by
  intro fields
  induction fields with
  | nil => intro inputs _; exact ⟨[], inputs, rfl⟩
  | cons fd rest ih =>
    rintro (_ | ⟨v, rem⟩) hlen
    · simp at hlen
    · obtain ⟨md, rem2, hmd⟩ := ih rem (by simp at hlen; omega)
      rcases fd with ⟨f, desc⟩
      by_cases hv : pyStrip v ≠ ""
      · exact ⟨(f, pyStrip v) :: md, rem2, by
          simp only [promptOptional, hmd]
          rw [if_pos hv]
          rfl⟩
      · by_cases hf : f = "language"
        · exact ⟨(f, "en") :: md, rem2, by
            simp only [promptOptional, hmd]
            rw [if_neg hv, if_pos hf]
            rfl⟩
        · exact ⟨md, rem2, by
            simp only [promptOptional, hmd]
            rw [if_neg hv, if_neg hf]
            rfl⟩

/-- C7 counterexample: with a persisted record missing only `publisher`,
the resolver prompts not only for the publisher but also for all five
optional fields. -/
theorem publisher_prompt_counterexample :
    check_required_metadata
        [("title", "T"), ("author", "A"), ("publication_date", "2025"),
          ("cover_image", "c.jpg")] = [("publisher", "Publisher Name")] ∧
      prompt_for_missing_metadata [("publisher", "Publisher Name")]
          ["Acme", "", "", "", "", ""] =
        some ([("publisher", "Acme"), ("language", "en")],
          ["Publisher Name", "Book Subtitle", "Keywords/Tags (comma-separated)",
            "Book Description", "Language (default: en)", "ISBN Number"]) ∧
      ["Publisher Name", "Book Subtitle", "Keywords/Tags (comma-separated)",
          "Book Description", "Language (default: en)", "ISBN Number"] ≠
        ["Publisher Name"] := by
  refine ⟨by decide, by decide, by decide⟩

/-- C7 (amended): given a persisted record whose only missing required
field is `publisher`, the resolver prompts for `publisher`, re-prompting
until the stripped input is non-empty, then always prompts for the five
optional fields (skippable; `language` defaults to `en`), and the merged
record contains the new publisher value. -/
theorem publisher_prompt_behavior (md : List (String × String))
    (pre : List String) (v : String) (post : List String)
    (hmd : check_required_metadata md = [("publisher", "Publisher Name")])
    (hpre : ∀ x ∈ pre, pyStrip x = "")
    (hv : pyStrip v ≠ "")
    (hpost : 5 ≤ post.length) :
    ∃ optMd, prompt_for_missing_metadata (check_required_metadata md)
        (pre ++ v :: post) =
      some (("publisher", pyStrip v) :: optMd,
        List.replicate (pre.length + 1) "Publisher Name" ++
          optional_fields.map Prod.snd) ∧
      lookupMeta (pyDictUpdate md (("publisher", pyStrip v) :: optMd))
        "publisher" = some (pyStrip v) := by
  rw [hmd]
  obtain ⟨optMd, rem, hopt⟩ := promptOptional_prompts optional_fields post
    (by simpa using hpost)
  refine ⟨optMd, ?_, ?_⟩
  · unfold prompt_for_missing_metadata
    simp only [promptAllRequired, promptRequiredLoop_spec _ pre v post hpre hv,
      hopt]
    simp
  · exact lookupMeta_pyDictUpdate md _ _ _ (by simp [lookupMeta])

/-- Witness for C7 at a concrete record and input stream. -/
theorem publisher_prompt_behavior_witness :
    ∃ optMd, prompt_for_missing_metadata
        (check_required_metadata
          [("title", "T"), ("author", "A"), ("publication_date", "2025"),
            ("cover_image", "c.jpg")])
        ([""] ++ "Acme Press" :: ["", "", "", "", ""]) =
      some (("publisher", pyStrip "Acme Press") :: optMd,
        List.replicate ([""].length + 1) "Publisher Name" ++
          optional_fields.map Prod.snd) ∧
      lookupMeta (pyDictUpdate
          [("title", "T"), ("author", "A"), ("publication_date", "2025"),
            ("cover_image", "c.jpg")]
          (("publisher", pyStrip "Acme Press") :: optMd))
        "publisher" = some (pyStrip "Acme Press") :=
  publisher_prompt_behavior
    [("title", "T"), ("author", "A"), ("publication_date", "2025"),
      ("cover_image", "c.jpg")]
    [""] "Acme Press" ["", "", "", "", ""]
    (by decide) (by decide) (by decide) (by decide)

/-! ### Ampersand escaping in the XHTML cleanup.

Source: `create_both_epubs.py`, lines 236-274: the `&nbsp;` → `&#160;`
normalization (line 237) followed by `escape_ampersands` (lines 248-272),
which protects every match of the entity regex
`&(?:[a-zA-Z][a-zA-Z0-9]*|#\d+|#x[0-9a-fA-F]+);` behind a placeholder
`___ENTITY_{n}___`, escapes all remaining `&` as `&amp;`, and then restores
the placeholders in insertion order. `\d` is modelled by ASCII digits (the
texts handled are ASCII). -/

/-- Character class `[a-zA-Z0-9]` of the entity-name tail. -/
def entChar (c : Char) : Bool := c.isAlpha || c.isDigit

/-- Character class `[0-9a-fA-F]`. -/
def isHexCh (c : Char) : Bool :=
  c.isDigit || ('a' ≤ c && c ≤ 'f') || ('A' ≤ c && c ≤ 'F')

/-- Match of the entity regex at the head of the list (leftmost position of
`re.sub`): returns the matched text and the remainder. The alternatives are
tried in the regex's order; greedy repetition followed by the mandatory `;`
reduces to a maximal character run. -/
def matchEntity : List Char → Option (List Char × List Char)
  | [] => none
  | c :: t =>
    if c = '&' then
      match t with
      | [] => none
      | c1 :: t1 =>
        if c1 = '#' then
          match t1 with
          | [] => none
          | c2 :: t2 =>
            if c2 = 'x' then
              if t2.takeWhile isHexCh = [] then none
              else
                match t2.dropWhile isHexCh with
                | [] => none
                | b :: r =>
                  if b = ';' then
                    some ('&' :: '#' :: 'x' :: (t2.takeWhile isHexCh ++ [';']), r)
                  else none
            else
              if t1.takeWhile Char.isDigit = [] then none
              else
                match t1.dropWhile Char.isDigit with
                | [] => none
                | b :: r =>
                  if b = ';' then
                    some ('&' :: '#' :: (t1.takeWhile Char.isDigit ++ [';']), r)
                  else none
        else if c1.isAlpha then
          match t.dropWhile entChar with
          | [] => none
          | b :: r =>
            if b = ';' then some ('&' :: (t.takeWhile entChar ++ [';']), r)
            else none
        else none
    else none

/-- Placeholder `___ENTITY_{n}___` of `escape_ampersands`. -/
def placeholder (n : Nat) : List Char :=
  "___ENTITY_".data ++ natChars n ++ "___".data

/-- Fuelled worker for `subEntities`. -/
def subEntitiesF : Nat → List Char → Nat → List Char × List (List Char)
  | _, [], _ => ([], [])
  | 0, l, _ => (l, [])
  | fuel + 1, c :: t, n =>
    match matchEntity (c :: t) with
    | some (e, r) =>
      (placeholder n ++ (subEntitiesF fuel r (n + 1)).1,
        e :: (subEntitiesF fuel r (n + 1)).2)
    | none =>
      (c :: (subEntitiesF fuel t n).1, (subEntitiesF fuel t n).2)

/-- Embedding of the `re.sub(entity_re, replace_entity, text)` pass: the
text with each entity match replaced by its placeholder (counters from
`n`), together with the list of protected entities in match order. -/
def subEntities (l : List Char) (n : Nat) : List Char × List (List Char) :=
  subEntitiesF l.length l n

/-- Embedding of `text.replace('&', '&amp;')`. -/
def ampEsc (l : List Char) : List Char := pyReplace '&' [] "&amp;".data l

/-- Embedding of the restore loop `for placeholder, entity in
entity_map.items(): text = text.replace(placeholder, entity)`. -/
def restoreEnts : List (List Char) → Nat → List Char → List Char
  | [], _, t => t
  | e :: es, n, t =>
    restoreEnts es (n + 1)
      (pyReplace '_' ("__ENTITY_".data ++ natChars n ++ "___".data) e t)

/-- Embedding of `escape_ampersands(text)`. -/
def escape_ampersands (l : List Char) : List Char :=
  restoreEnts (subEntities l 0).2 0 (ampEsc (subEntities l 0).1)

/-- Embedding of `xhtml_content.replace('&nbsp;', '&#160;')` (line 237). -/
def fixNbsp (l : List Char) : List Char :=
  pyReplace '&' "nbsp;".data "&#160;".data l

/-- The full entity-escaping step of the converter: the `&nbsp;`
normalization followed by `escape_ampersands`. -/
def xhtml_entity_step (l : List Char) : List Char :=
  escape_ampersands (fixNbsp l)

/-- Fuelled worker for `escSpec`. -/
def escSpecF : Nat → List Char → List Char
  | _, [] => []
  | 0, l => l
  | fuel + 1, c :: t =>
    match matchEntity (c :: t) with
    | some (e, r) => e ++ escSpecF fuel r
    | none => (if c = '&' then "&amp;".data else [c]) ++ escSpecF fuel t

/-- Specification scanner, following the claim's words: copy every valid
entity reference unchanged, replace every other ampersand by `&amp;`, copy
all other characters. -/
def escSpec (l : List Char) : List Char := escSpecF l.length l

/-- Fuelled worker for `ampOk`. -/
def ampOkF : Nat → List Char → Bool
  | _, [] => true
  | 0, _ => false
  | fuel + 1, c :: t =>
    if c = '&' then
      match matchEntity (c :: t) with
      | some (_, r) => ampOkF fuel r
      | none => false
    else ampOkF fuel t

/-- Whether every ampersand in the text begins a valid entity reference. -/
def ampOk (l : List Char) : Bool := ampOkF l.length l

theorem startsWith_self_append (a x : List Char) :
    startsWith a (a ++ x) = true :=
  (startsWith_iff a (a ++ x)).mpr ⟨x, rfl⟩

theorem startsWith_append_left (a x y : List Char) :
    startsWith (a ++ x) (a ++ y) = startsWith x y := by
  induction a with
  | nil => rfl
  | cons c a ih => simp [startsWith, ih]

theorem startsWith_cons_ne (p c : Char) (ps l : List Char) (h : c ≠ p) :
    startsWith (p :: ps) (c :: l) = false := by
  simp [startsWith, Ne.symm h]

theorem hasOcc_append_of_ne (p : Char) (ps : List Char) :
    ∀ (A B : List Char), (∀ a ∈ A, a ≠ p) →
      hasOcc p ps (A ++ B) = hasOcc p ps B := by
  intro A
  induction A with
  | nil => intro B _; rfl
  | cons a A ih =>
    intro B hA
    have ha : a ≠ p := hA a (List.mem_cons_self _ _)
    show (startsWith (p :: ps) (a :: (A ++ B)) || hasOcc p ps (A ++ B)) = _
    rw [startsWith_cons_ne p a ps _ ha, ih B
      (fun x hx => hA x (List.mem_cons_of_mem _ hx))]
    rfl

theorem pyReplace_append_of_ne (p : Char) (ps rep : List Char) :
    ∀ (A B : List Char), (∀ a ∈ A, a ≠ p) →
      pyReplace p ps rep (A ++ B) = A ++ pyReplace p ps rep B := by
  intro A
  induction A with
  | nil => intro B _; rfl
  | cons a A ih =>
    intro B hA
    have ha : a ≠ p := hA a (List.mem_cons_self _ _)
    rw [List.cons_append, pyReplace_cons,
      if_neg (by rw [startsWith_cons_ne p a ps _ ha]; simp)]
    rw [ih B (fun x hx => hA x (List.mem_cons_of_mem _ hx))]
    rfl

theorem pyReplace_head_match (p : Char) (ps rep B : List Char) :
    pyReplace p ps rep ((p :: ps) ++ B) = rep ++ pyReplace p ps rep B := by
  rw [List.cons_append, pyReplace_cons,
    if_pos (by rw [← List.cons_append]; exact startsWith_self_append _ _)]
  rw [List.drop_left' rfl]

theorem restoreEnts_append (es : List (List Char)) :
    ∀ (n : Nat) (A B : List Char), (∀ c ∈ A, c ≠ '_') →
      restoreEnts es n (A ++ B) = A ++ restoreEnts es n B := by
  induction es with
  | nil => intro n A B _; rfl
  | cons e es ih =>
    intro n A B hA
    show restoreEnts es (n + 1) _ = _
    rw [pyReplace_append_of_ne '_' _ e A B hA, ih (n + 1) A _ hA]
    rfl

theorem mem_pyReplace (p : Char) (ps rep : List Char) :
    ∀ (n : Nat) (l : List Char), l.length ≤ n →
      ∀ a ∈ pyReplace p ps rep l, a ∈ rep ∨ a ∈ l := by
  intro n
  induction n with
  | zero =>
    intro l hl a ha
    have : l = [] := List.eq_nil_of_length_eq_zero (Nat.le_zero.mp hl)
    subst this
    rw [pyReplace_nil] at ha
    exact absurd ha (List.not_mem_nil a)
  | succ n ih =>
    intro l hl a ha
    cases l with
    | nil =>
      rw [pyReplace_nil] at ha
      exact absurd ha (List.not_mem_nil a)
    | cons c t =>
      rw [pyReplace_cons] at ha
      split at ha
      · rcases List.mem_append.mp ha with h | h
        · exact Or.inl h
        · rcases ih (t.drop ps.length) (by simp at hl ⊢; omega) a h with h2 | h2
          · exact Or.inl h2
          · exact Or.inr (List.mem_cons_of_mem _ (List.mem_of_mem_drop h2))
      · rcases List.mem_cons.mp ha with h | h
        · exact Or.inr (h ▸ List.mem_cons_self _ _)
        · rcases ih t (by simp at hl; omega) a h with h2 | h2
          · exact Or.inl h2
          · exact Or.inr (List.mem_cons_of_mem _ h2)

theorem entChar_ne_usc (c : Char) (h : entChar c = true) : c ≠ '_' := by
  intro hc
  subst hc
  exact absurd h (by decide)

theorem isAlpha_ne_hash (c : Char) (h : c.isAlpha = true) : c ≠ '#' := by
  intro hc
  subst hc
  exact absurd h (by decide)

theorem isDigit_ne_x (c : Char) (h : c.isDigit = true) : c ≠ 'x' := by
  intro hc
  subst hc
  exact absurd h (by decide)

theorem isDigit_ne_usc (c : Char) (h : c.isDigit = true) : c ≠ '_' := by
  intro hc
  subst hc
  exact absurd h (by decide)

theorem isHexCh_ne_usc (c : Char) (h : isHexCh c = true) : c ≠ '_' := by
  intro hc
  subst hc
  exact absurd h (by decide)

theorem takeWhile_dropWhile_of_append {p : Char → Bool} :
    ∀ (run : List Char) (b : Char) (x : List Char),
      (∀ c ∈ run, p c = true) → p b = false →
      (run ++ b :: x).takeWhile p = run ∧ (run ++ b :: x).dropWhile p = b :: x := by
  intro run
  induction run with
  | nil =>
    intro b x _ hb
    constructor
    · simp [List.takeWhile_cons, hb]
    · simp [List.dropWhile_cons, hb]
  | cons c run ih =>
    intro b x hrun hb
    have hc : p c = true := hrun c (List.mem_cons_self _ _)
    obtain ⟨h1, h2⟩ := ih b x (fun y hy => hrun y (List.mem_cons_of_mem _ hy)) hb
    constructor
    · simp [List.takeWhile_cons, hc, h1]
    · simp [List.dropWhile_cons, hc, h2]

/-- The three shapes an entity match can take, mirroring the regex
alternatives. -/
inductive EntShape : List Char → Prop where
  | name (run : List Char) (c1 : Char) (h1 : run.head? = some c1)
      (h2 : c1.isAlpha = true) (h3 : ∀ c ∈ run, entChar c = true) :
      EntShape ('&' :: (run ++ [';']))
  | num (run : List Char) (h1 : run ≠ [])
      (h2 : ∀ c ∈ run, c.isDigit = true) :
      EntShape ('&' :: '#' :: (run ++ [';']))
  | hex (run : List Char) (h1 : run ≠ [])
      (h2 : ∀ c ∈ run, isHexCh c = true) :
      EntShape ('&' :: '#' :: 'x' :: (run ++ [';']))

theorem matchEntity_name (run : List Char) (c1 : Char) (x : List Char)
    (hhead : run.head? = some c1) (ha : c1.isAlpha = true)
    (hrun : ∀ c ∈ run, entChar c = true) :
    matchEntity ('&' :: (run ++ ';' :: x)) = some ('&' :: (run ++ [';']), x) := by
  obtain ⟨run', rfl⟩ : ∃ run', run = c1 :: run' := by
    cases run with
    | nil => simp at hhead
    | cons r rs =>
      refine ⟨rs, ?_⟩
      simp at hhead
      rw [hhead]
  obtain ⟨htake, hdrop⟩ := takeWhile_dropWhile_of_append (p := entChar)
    (c1 :: run') ';' x hrun (by decide)
  simp only [List.cons_append] at htake hdrop ⊢
  simp only [matchEntity, if_true]
  rw [if_neg (isAlpha_ne_hash c1 ha), if_pos ha,
    show (c1 :: (run' ++ ';' :: x)).dropWhile entChar = ';' :: x from hdrop,
    show (c1 :: (run' ++ ';' :: x)).takeWhile entChar = c1 :: run' from htake]
  simp

theorem matchEntity_num (run : List Char) (x : List Char) (hne : run ≠ [])
    (hrun : ∀ c ∈ run, c.isDigit = true) :
    matchEntity ('&' :: '#' :: (run ++ ';' :: x)) =
      some ('&' :: '#' :: (run ++ [';']), x) := by
  obtain ⟨d, run', rfl⟩ : ∃ d run', run = d :: run' := by
    cases run with
    | nil => exact absurd rfl hne
    | cons r rs => exact ⟨r, rs, rfl⟩
  have hd : d.isDigit = true := hrun d (List.mem_cons_self _ _)
  obtain ⟨htake, hdrop⟩ := takeWhile_dropWhile_of_append (p := Char.isDigit)
    (d :: run') ';' x hrun (by decide)
  simp only [List.cons_append] at htake hdrop ⊢
  simp only [matchEntity, if_true]
  rw [if_neg (isDigit_ne_x d hd),
    show (d :: (run' ++ ';' :: x)).takeWhile Char.isDigit = d :: run'
      from htake,
    show (d :: (run' ++ ';' :: x)).dropWhile Char.isDigit = ';' :: x
      from hdrop]
  simp

theorem matchEntity_hex (run : List Char) (x : List Char) (hne : run ≠ [])
    (hrun : ∀ c ∈ run, isHexCh c = true) :
    matchEntity ('&' :: '#' :: 'x' :: (run ++ ';' :: x)) =
      some ('&' :: '#' :: 'x' :: (run ++ [';']), x) := by
  obtain ⟨htake, hdrop⟩ := takeWhile_dropWhile_of_append (p := isHexCh)
    run ';' x hrun (by decide)
  simp only [matchEntity, if_true]
  rw [show (run ++ ';' :: x).takeWhile isHexCh = run from htake,
    show (run ++ ';' :: x).dropWhile isHexCh = ';' :: x from hdrop,
    if_neg hne]
  simp

theorem EntShape.rematch {ent : List Char} (h : EntShape ent) :
    ∀ x, matchEntity (ent ++ x) = some (ent, x) := by
  intro x
  cases h with
  | name run c1 h1 h2 h3 =>
    have := matchEntity_name run c1 x h1 h2 h3
    simpa [List.append_assoc] using this
  | num run h1 h2 =>
    have := matchEntity_num run x h1 h2
    simpa [List.append_assoc] using this
  | hex run h1 h2 =>
    have := matchEntity_hex run x h1 h2
    simpa [List.append_assoc] using this

theorem EntShape.no_usc {ent : List Char} (h : EntShape ent) :
    ∀ c ∈ ent, c ≠ '_' := by
  cases h with
  | name run c1 h1 h2 h3 =>
    intro c hc
    rcases List.mem_cons.mp hc with h | h
    · subst h; decide
    · rcases List.mem_append.mp h with h | h
      · exact entChar_ne_usc c (h3 c h)
      · simp at h; subst h; decide
  | num run h1 h2 =>
    intro c hc
    rcases List.mem_cons.mp hc with h | h
    · subst h; decide
    rcases List.mem_cons.mp h with h | h
    · subst h; decide
    rcases List.mem_append.mp h with h | h
    · exact isDigit_ne_usc c (h2 c h)
    · simp at h; subst h; decide
  | hex run h1 h2 =>
    intro c hc
    rcases List.mem_cons.mp hc with h | h
    · subst h; decide
    rcases List.mem_cons.mp h with h | h
    · subst h; decide
    rcases List.mem_cons.mp h with h | h
    · subst h; decide
    rcases List.mem_append.mp h with h | h
    · exact isHexCh_ne_usc c (h2 c h)
    · simp at h; subst h; decide

theorem EntShape.head_amp {ent : List Char} (h : EntShape ent) :
    ent.head? = some '&' := by
  cases h <;> rfl

theorem EntShape.ne_nil {ent : List Char} (h : EntShape ent) : ent ≠ [] := by
  cases h <;> simp

theorem matchEntity_some_shape :
    ∀ (l ent rest : List Char), matchEntity l = some (ent, rest) →
      l = ent ++ rest ∧ EntShape ent := by
  intro l ent rest h
  cases l with
  | nil => simp [matchEntity] at h
  | cons c t =>
    simp only [matchEntity] at h
    by_cases hc : c = '&'
    case neg => rw [if_neg hc] at h; simp at h
    rw [if_pos hc] at h
    subst hc
    cases t with
    | nil => simp at h
    | cons c1 t1 =>
      dsimp only at h
      by_cases h1 : c1 = '#'
      · rw [if_pos h1] at h
        subst h1
        cases t1 with
        | nil => simp at h
        | cons c2 t2 =>
          dsimp only at h
          by_cases h2 : c2 = 'x'
          · rw [if_pos h2] at h
            subst h2
            by_cases hrun : t2.takeWhile isHexCh = []
            · rw [if_pos hrun] at h; simp at h
            · rw [if_neg hrun] at h
              rcases hdrop : t2.dropWhile isHexCh with _ | ⟨b, r⟩
              · rw [hdrop] at h; simp at h
              · rw [hdrop] at h
                dsimp only at h
                by_cases hb : b = ';'
                · rw [if_pos hb] at h
                  subst hb
                  have hse := h
                  simp only [Option.some.injEq, Prod.mk.injEq] at hse
                  obtain ⟨hent, hrest⟩ := hse
                  have ht2 : t2 = t2.takeWhile isHexCh ++ ';' :: r := by
                    conv_lhs => rw [← List.takeWhile_append_dropWhile
                      (p := isHexCh) (l := t2)]
                    rw [hdrop]
                  constructor
                  · rw [← hent, ← hrest]
                    rw [show ('&' : Char) :: '#' :: 'x' ::
                        (t2.takeWhile isHexCh ++ [';']) ++ r =
                        '&' :: '#' :: 'x' ::
                        (t2.takeWhile isHexCh ++ ';' :: r) by simp]
                    rw [← ht2]
                  · rw [← hent]
                    exact EntShape.hex _ hrun
                      (fun c hc => List.mem_takeWhile_imp hc)
                · rw [if_neg hb] at h; simp at h
          · rw [if_neg h2] at h
            by_cases hrun : (c2 :: t2).takeWhile Char.isDigit = []
            · rw [if_pos hrun] at h; simp at h
            · rw [if_neg hrun] at h
              rcases hdrop : (c2 :: t2).dropWhile Char.isDigit with _ | ⟨b, r⟩
              · rw [hdrop] at h; simp at h
              · rw [hdrop] at h
                dsimp only at h
                by_cases hb : b = ';'
                · rw [if_pos hb] at h
                  subst hb
                  simp only [Option.some.injEq, Prod.mk.injEq] at h
                  obtain ⟨hent, hrest⟩ := h
                  have ht1 : c2 :: t2 =
                      (c2 :: t2).takeWhile Char.isDigit ++ ';' :: r := by
                    conv_lhs => rw [← List.takeWhile_append_dropWhile
                      (p := Char.isDigit) (l := c2 :: t2)]
                    rw [hdrop]
                  constructor
                  · rw [← hent, ← hrest]
                    rw [show ('&' : Char) :: '#' ::
                        ((c2 :: t2).takeWhile Char.isDigit ++ [';']) ++ r =
                        '&' :: '#' ::
                        ((c2 :: t2).takeWhile Char.isDigit ++ ';' :: r) by simp]
                    rw [← ht1]
                  · rw [← hent]
                    exact EntShape.num _ hrun
                      (fun c hc => List.mem_takeWhile_imp hc)
                · rw [if_neg hb] at h; simp at h
      · rw [if_neg h1] at h
        by_cases ha : c1.isAlpha = true
        · rw [if_pos ha] at h
          rcases hdrop : (c1 :: t1).dropWhile entChar with _ | ⟨b, r⟩
          · rw [hdrop] at h; simp at h
          · rw [hdrop] at h
            dsimp only at h
            by_cases hb : b = ';'
            · rw [if_pos hb] at h
              subst hb
              simp only [Option.some.injEq, Prod.mk.injEq] at h
              obtain ⟨hent, hrest⟩ := h
              have ht : c1 :: t1 =
                  (c1 :: t1).takeWhile entChar ++ ';' :: r := by
                conv_lhs => rw [← List.takeWhile_append_dropWhile
                  (p := entChar) (l := c1 :: t1)]
                rw [hdrop]
              have hc1 : entChar c1 = true := by simp [entChar, ha]
              have htake : (c1 :: t1).takeWhile entChar =
                  c1 :: t1.takeWhile entChar := by
                simp [List.takeWhile_cons, hc1]
              constructor
              · rw [← hent, ← hrest]
                rw [show ('&' : Char) ::
                    ((c1 :: t1).takeWhile entChar ++ [';']) ++ r =
                    '&' :: ((c1 :: t1).takeWhile entChar ++ ';' :: r)
                    by simp]
                rw [← ht]
              · rw [← hent]
                refine EntShape.name _ c1 ?_ ha
                  (fun c hc => List.mem_takeWhile_imp hc)
                rw [htake]
                rfl
            · rw [if_neg hb] at h; simp at h
        · rw [if_neg ha] at h; simp at h

theorem matchEntity_rest_lt {l e r : List Char}
    (h : matchEntity l = some (e, r)) : r.length < l.length := by
  obtain ⟨hl, hs⟩ := matchEntity_some_shape l e r h
  have hne : e ≠ [] := hs.ne_nil
  have : 0 < e.length := List.length_pos.mpr hne
  rw [hl, List.length_append]
  omega

/-- Token view of the leftmost entity scan (proof device): each position of
the input is either a raw character or a complete entity match. -/
inductive Tok where
  | raw : Char → Tok
  | ent : List Char → Tok
deriving DecidableEq

/-- Fuelled worker for `toks`. -/
def toksF : Nat → List Char → List Tok
  | _, [] => []
  | 0, _ => []
  | fuel + 1, c :: t =>
    match matchEntity (c :: t) with
    | some (e, r) => Tok.ent e :: toksF fuel r
    | none => Tok.raw c :: toksF fuel t

/-- Token decomposition of a text. -/
def toks (l : List Char) : List Tok := toksF l.length l

theorem toksF_fuel :
    ∀ (f1 : Nat) (l : List Char) (f2 : Nat), l.length ≤ f1 → l.length ≤ f2 →
      toksF f1 l = toksF f2 l := by
  intro f1
  induction f1 with
  | zero =>
    intro l f2 h1 _
    have : l = [] := List.eq_nil_of_length_eq_zero (Nat.le_zero.mp h1)
    subst this
    cases f2 <;> rfl
  | succ f1 ih =>
    intro l f2 h1 h2
    cases l with
    | nil => cases f2 <;> rfl
    | cons c t =>
      cases f2 with
      | zero => simp at h2
      | succ f2 =>
        simp only [toksF]
        rcases hm : matchEntity (c :: t) with _ | ⟨e, r⟩
        · rw [ih t f2 (by simp at h1; omega) (by simp at h2; omega)]
        · have hlt := matchEntity_rest_lt hm
          dsimp only
          rw [ih r f2 (by simp at h1 hlt; omega) (by simp at h2 hlt; omega)]

theorem toks_cons_ent {c : Char} {t e r : List Char}
    (h : matchEntity (c :: t) = some (e, r)) :
    toks (c :: t) = Tok.ent e :: toks r := by
  unfold toks
  have hlt := matchEntity_rest_lt h
  simp only [List.length_cons, toksF, h]
  rw [toksF_fuel t.length r r.length (by simp at hlt; omega) (le_refl _)]

theorem toks_cons_raw {c : Char} {t : List Char}
    (h : matchEntity (c :: t) = none) :
    toks (c :: t) = Tok.raw c :: toks t := by
  unfold toks
  simp only [List.length_cons, toksF, h]

/-- Placeholder rendering of a token list, with the running counter. -/
def renderPH : List Tok → Nat → List Char
  | [], _ => []
  | Tok.raw c :: ts, n => c :: renderPH ts n
  | Tok.ent _ :: ts, n => placeholder n ++ renderPH ts (n + 1)

/-- Entities of a token list, in order. -/
def entsOf : List Tok → List (List Char)
  | [] => []
  | Tok.raw _ :: ts => entsOf ts
  | Tok.ent e :: ts => e :: entsOf ts

/-- Final (specification) rendering of a token list. -/
def renderSpec : List Tok → List Char
  | [] => []
  | Tok.raw c :: ts => (if c = '&' then "&amp;".data else [c]) ++ renderSpec ts
  | Tok.ent e :: ts => e ++ renderSpec ts

/-- Text state after ampersand escaping and restoring exactly the
placeholders with counter below `k`: raw characters are escaped, entities
with index below `k` appear restored, the others as placeholders. -/
def midText : List Tok → Nat → Nat → List Char
  | [], _, _ => []
  | Tok.raw c :: ts, n, k =>
    (if c = '&' then "&amp;".data else [c]) ++ midText ts n k
  | Tok.ent e :: ts, n, k =>
    (if n < k then e else placeholder n) ++ midText ts (n + 1) k

/-- Every entity token has one of the entity shapes. -/
def GoodToks (ts : List Tok) : Prop := ∀ e, Tok.ent e ∈ ts → EntShape e

/-- No raw token is an underscore. -/
def RawsNoUsc (ts : List Tok) : Prop := ∀ c, Tok.raw c ∈ ts → c ≠ '_'

theorem subEntitiesF_fuel :
    ∀ (f1 : Nat) (l : List Char) (n f2 : Nat), l.length ≤ f1 → l.length ≤ f2 →
      subEntitiesF f1 l n = subEntitiesF f2 l n := by
  intro f1
  induction f1 with
  | zero =>
    intro l n f2 h1 _
    have : l = [] := List.eq_nil_of_length_eq_zero (Nat.le_zero.mp h1)
    subst this
    cases f2 <;> rfl
  | succ f1 ih =>
    intro l n f2 h1 h2
    cases l with
    | nil => cases f2 <;> rfl
    | cons c t =>
      cases f2 with
      | zero => simp at h2
      | succ f2 =>
        simp only [subEntitiesF]
        rcases hm : matchEntity (c :: t) with _ | ⟨e, r⟩
        · rw [ih t n f2 (by simp at h1; omega) (by simp at h2; omega)]
        · have hlt := matchEntity_rest_lt hm
          dsimp only
          rw [ih r (n + 1) f2 (by simp at h1 hlt; omega)
            (by simp at h2 hlt; omega)]

theorem subEntities_cons_ent {c : Char} {t e r : List Char} (n : Nat)
    (h : matchEntity (c :: t) = some (e, r)) :
    subEntities (c :: t) n =
      (placeholder n ++ (subEntities r (n + 1)).1,
        e :: (subEntities r (n + 1)).2) := by
  unfold subEntities
  have hlt := matchEntity_rest_lt h
  simp only [List.length_cons, subEntitiesF, h]
  rw [show subEntitiesF t.length r (n + 1) = subEntitiesF r.length r (n + 1)
    from subEntitiesF_fuel t.length r (n + 1) r.length
      (by simp at hlt; omega) (le_refl _)]

theorem subEntities_cons_raw {c : Char} {t : List Char} (n : Nat)
    (h : matchEntity (c :: t) = none) :
    subEntities (c :: t) n =
      (c :: (subEntities t n).1, (subEntities t n).2) := by
  unfold subEntities
  simp only [List.length_cons, subEntitiesF, h]

theorem subEntities_eq_toks :
    ∀ (m : Nat) (l : List Char), l.length ≤ m → ∀ n,
      subEntities l n = (renderPH (toks l) n, entsOf (toks l)) := by
  intro m
  induction m with
  | zero =>
    intro l hl n
    have : l = [] := List.eq_nil_of_length_eq_zero (Nat.le_zero.mp hl)
    subst this
    rfl
  | succ m ih =>
    intro l hl n
    cases l with
    | nil => rfl
    | cons c t =>
      rcases hm : matchEntity (c :: t) with _ | ⟨e, r⟩
      · rw [subEntities_cons_raw n hm, toks_cons_raw hm,
          ih t (by simp at hl; omega) n]
        rfl
      · have hlt := matchEntity_rest_lt hm
        rw [subEntities_cons_ent n hm, toks_cons_ent hm,
          ih r (by simp at hl hlt; omega) (n + 1)]
        rfl

theorem escSpecF_fuel :
    ∀ (f1 : Nat) (l : List Char) (f2 : Nat), l.length ≤ f1 → l.length ≤ f2 →
      escSpecF f1 l = escSpecF f2 l := by
  intro f1
  induction f1 with
  | zero =>
    intro l f2 h1 _
    have : l = [] := List.eq_nil_of_length_eq_zero (Nat.le_zero.mp h1)
    subst this
    cases f2 <;> rfl
  | succ f1 ih =>
    intro l f2 h1 h2
    cases l with
    | nil => cases f2 <;> rfl
    | cons c t =>
      cases f2 with
      | zero => simp at h2
      | succ f2 =>
        simp only [escSpecF]
        rcases hm : matchEntity (c :: t) with _ | ⟨e, r⟩
        · rw [ih t f2 (by simp at h1; omega) (by simp at h2; omega)]
        · have hlt := matchEntity_rest_lt hm
          dsimp only
          rw [ih r f2 (by simp at h1 hlt; omega) (by simp at h2 hlt; omega)]

theorem escSpec_cons_ent {c : Char} {t e r : List Char}
    (h : matchEntity (c :: t) = some (e, r)) :
    escSpec (c :: t) = e ++ escSpec r := by
  unfold escSpec
  have hlt := matchEntity_rest_lt h
  simp only [List.length_cons, escSpecF, h]
  rw [escSpecF_fuel t.length r r.length (by simp at hlt; omega) (le_refl _)]

theorem escSpec_cons_raw {c : Char} {t : List Char}
    (h : matchEntity (c :: t) = none) :
    escSpec (c :: t) = (if c = '&' then "&amp;".data else [c]) ++ escSpec t := by
  unfold escSpec
  simp only [List.length_cons, escSpecF, h]

theorem escSpec_eq_toks :
    ∀ (m : Nat) (l : List Char), l.length ≤ m →
      escSpec l = renderSpec (toks l) := by
  intro m
  induction m with
  | zero =>
    intro l hl
    have : l = [] := List.eq_nil_of_length_eq_zero (Nat.le_zero.mp hl)
    subst this
    rfl
  | succ m ih =>
    intro l hl
    cases l with
    | nil => rfl
    | cons c t =>
      rcases hm : matchEntity (c :: t) with _ | ⟨e, r⟩
      · rw [escSpec_cons_raw hm, toks_cons_raw hm, ih t (by simp at hl; omega)]
        rfl
      · have hlt := matchEntity_rest_lt hm
        rw [escSpec_cons_ent hm, toks_cons_ent hm,
          ih r (by simp at hl hlt; omega)]
        rfl

theorem toks_good :
    ∀ (m : Nat) (l : List Char), l.length ≤ m → GoodToks (toks l) := by
  intro m
  induction m with
  | zero =>
    intro l hl
    have : l = [] := List.eq_nil_of_length_eq_zero (Nat.le_zero.mp hl)
    subst this
    intro e he
    simp [toks, toksF] at he
  | succ m ih =>
    intro l hl
    cases l with
    | nil => intro e he; simp [toks, toksF] at he
    | cons c t =>
      rcases hm : matchEntity (c :: t) with _ | ⟨e0, r⟩
      · rw [toks_cons_raw hm]
        intro e he
        rcases List.mem_cons.mp he with h | h
        · simp at h
        · exact ih t (by simp at hl; omega) e h
      · have hlt := matchEntity_rest_lt hm
        rw [toks_cons_ent hm]
        intro e he
        rcases List.mem_cons.mp he with h | h
        · have he0 : e = e0 := by simpa using h
          subst he0
          exact (matchEntity_some_shape _ _ _ hm).2
        · exact ih r (by simp at hl hlt; omega) e h

theorem toks_raws :
    ∀ (m : Nat) (l : List Char), l.length ≤ m → '_' ∉ l →
      RawsNoUsc (toks l) := by
  intro m
  induction m with
  | zero =>
    intro l hl _
    have : l = [] := List.eq_nil_of_length_eq_zero (Nat.le_zero.mp hl)
    subst this
    intro c hc
    simp [toks, toksF] at hc
  | succ m ih =>
    intro l hl hu
    cases l with
    | nil => intro c hc; simp [toks, toksF] at hc
    | cons c0 t =>
      rcases hm : matchEntity (c0 :: t) with _ | ⟨e0, r⟩
      · rw [toks_cons_raw hm]
        intro c hc
        rcases List.mem_cons.mp hc with h | h
        · have : c = c0 := by simpa using h
          subst this
          exact fun hcu => hu (hcu ▸ List.mem_cons_self _ _)
        · exact ih t (by simp at hl; omega)
            (fun hm2 => hu (List.mem_cons_of_mem _ hm2)) c h
      · have hlt := matchEntity_rest_lt hm
        obtain ⟨hdec, _⟩ := matchEntity_some_shape _ _ _ hm
        rw [toks_cons_ent hm]
        intro c hc
        rcases List.mem_cons.mp hc with h | h
        · simp at h
        · refine ih r (by simp at hl hlt; omega) ?_ c h
          intro hm2
          exact hu (hdec ▸ List.mem_append.mpr (Or.inr hm2))

theorem pyReplace_single_append (p : Char) (rep : List Char) :
    ∀ a b, pyReplace p [] rep (a ++ b) =
      pyReplace p [] rep a ++ pyReplace p [] rep b := by
  intro a b
  induction a with
  | nil => rw [List.nil_append, pyReplace_nil, List.nil_append]
  | cons c t ih =>
    rw [List.cons_append, pyReplace_single_cons, pyReplace_single_cons, ih,
      List.append_assoc]

theorem isDigit_ne_amp (c : Char) (h : c.isDigit = true) : c ≠ '&' := by
  intro hc
  subst hc
  exact absurd h (by decide)

theorem placeholder_no_amp (n : Nat) : '&' ∉ placeholder n := by
  intro h
  unfold placeholder at h
  rcases List.mem_append.mp h with h | h
  · rcases List.mem_append.mp h with h | h
    · exact absurd h (by decide)
    · exact isDigit_ne_amp '&' (natChars_mem_isDigit n '&' h) rfl
  · exact absurd h (by decide)

theorem ampEsc_cons (c : Char) (t : List Char) :
    ampEsc (c :: t) = (if c = '&' then "&amp;".data else [c]) ++ ampEsc t := by
  unfold ampEsc
  rw [pyReplace_single_cons]

theorem ampEsc_append (a b : List Char) :
    ampEsc (a ++ b) = ampEsc a ++ ampEsc b :=
  pyReplace_single_append '&' "&amp;".data a b

theorem ampEsc_placeholder (n : Nat) : ampEsc (placeholder n) = placeholder n :=
  pyReplace_single_id '&' "&amp;".data (placeholder n) (placeholder_no_amp n)

/-- `placeholder n` with the first underscore peeled off: the head is the
replace pattern's head, the rest its tail. -/
theorem placeholder_cons (n : Nat) :
    placeholder n = '_' :: ("__ENTITY_".data ++ natChars n ++ "___".data) := rfl

/-- Explicit character spine of a placeholder. -/
theorem placeholder_explicit (n : Nat) :
    placeholder n =
      '_' :: '_' :: '_' :: 'E' :: 'N' :: 'T' :: 'I' :: 'T' :: 'Y' :: '_' ::
        (natChars n ++ ['_', '_', '_']) := rfl

theorem midText_frozen :
    ∀ (ts : List Tok) (n k1 k2 : Nat), k1 ≤ n → k2 ≤ n →
      midText ts n k1 = midText ts n k2 := by
  intro ts
  induction ts with
  | nil => intro n k1 k2 _ _; rfl
  | cons tk ts ih =>
    intro n k1 k2 h1 h2
    cases tk with
    | raw c =>
      simp only [midText]
      rw [ih n k1 k2 h1 h2]
    | ent e =>
      simp only [midText]
      rw [if_neg (by omega), if_neg (by omega),
        ih (n + 1) k1 k2 (by omega) (by omega)]

theorem midText_lo :
    ∀ (ts : List Tok) (n : Nat), ampEsc (renderPH ts n) = midText ts n n := by
  intro ts
  induction ts with
  | nil => intro n; rfl
  | cons tk ts ih =>
    intro n
    cases tk with
    | raw c =>
      simp only [renderPH, midText]
      rw [ampEsc_cons, ih n]
    | ent e =>
      simp only [renderPH, midText]
      rw [ampEsc_append, ampEsc_placeholder, if_neg (by omega), ih (n + 1),
        midText_frozen ts (n + 1) (n + 1) n (by omega) (by omega)]

theorem midText_hi :
    ∀ (ts : List Tok) (n k : Nat), n + (entsOf ts).length ≤ k →
      midText ts n k = renderSpec ts := by
  intro ts
  induction ts with
  | nil => intro n k _; rfl
  | cons tk ts ih =>
    intro n k h
    cases tk with
    | raw c =>
      simp only [midText, renderSpec]
      rw [ih n k (by simpa [entsOf] using h)]
    | ent e =>
      simp only [midText, renderSpec, entsOf] at h ⊢
      rw [if_pos (by simp [List.length_cons] at h; omega),
        ih (n + 1) k (by simp [List.length_cons] at h; omega)]

theorem ampOkF_fuel :
    ∀ (f1 : Nat) (l : List Char) (f2 : Nat), l.length ≤ f1 → l.length ≤ f2 →
      ampOkF f1 l = ampOkF f2 l := by
  intro f1
  induction f1 with
  | zero =>
    intro l f2 h1 _
    have : l = [] := List.eq_nil_of_length_eq_zero (Nat.le_zero.mp h1)
    subst this
    cases f2 <;> rfl
  | succ f1 ih =>
    intro l f2 h1 h2
    cases l with
    | nil => cases f2 <;> rfl
    | cons c t =>
      cases f2 with
      | zero => simp at h2
      | succ f2 =>
        simp only [ampOkF]
        by_cases hc : c = '&'
        · rw [if_pos hc, if_pos hc]
          rcases hm : matchEntity (c :: t) with _ | ⟨e, r⟩
          · rfl
          · have hlt := matchEntity_rest_lt hm
            dsimp only
            rw [ih r f2 (by simp at h1 hlt; omega) (by simp at h2 hlt; omega)]
        · rw [if_neg hc, if_neg hc,
            ih t f2 (by simp at h1; omega) (by simp at h2; omega)]

theorem ampOk_cons_ne (c : Char) (t : List Char) (h : c ≠ '&') :
    ampOk (c :: t) = ampOk t := by
  unfold ampOk
  simp only [List.length_cons, ampOkF, if_neg h]

theorem ampOk_append_ent {e : List Char} (h : EntShape e) (x : List Char) :
    ampOk (e ++ x) = ampOk x := by
  have hm0 := h.rematch x
  obtain ⟨t, rfl⟩ : ∃ t, e = '&' :: t := by
    cases e with
    | nil => exact absurd rfl h.ne_nil
    | cons a t =>
      have := h.head_amp
      simp at this
      exact ⟨t, by rw [this]⟩
  rw [List.cons_append] at hm0 ⊢
  unfold ampOk
  simp only [List.length_cons, ampOkF, if_pos rfl, hm0]
  exact ampOkF_fuel (t ++ x).length x x.length
    (by rw [List.length_append]; omega) (le_refl _)

theorem entShape_amp : EntShape "&amp;".data := by
  rw [show "&amp;".data = '&' :: (['a', 'm', 'p'] ++ [';']) from rfl]
  exact EntShape.name ['a', 'm', 'p'] 'a' rfl (by decide) (by decide)

theorem ampOk_renderSpec :
    ∀ ts : List Tok, GoodToks ts → ampOk (renderSpec ts) = true := by
  intro ts
  induction ts with
  | nil => intro _; rfl
  | cons tk ts ih =>
    intro hg
    have hg' : GoodToks ts := fun e he => hg e (List.mem_cons_of_mem _ he)
    cases tk with
    | raw c =>
      by_cases hc : c = '&'
      · simp only [renderSpec, if_pos hc]
        rw [ampOk_append_ent entShape_amp, ih hg']
      · simp only [renderSpec, if_neg hc, List.singleton_append]
        rw [ampOk_cons_ne c _ hc, ih hg']
    | ent e =>
      have he : EntShape e := hg e (List.mem_cons_self _ _)
      simp only [renderSpec]
      rw [ampOk_append_ent he, ih hg']

theorem startsWith_cons_same (c : Char) (ps l : List Char) :
    startsWith (c :: ps) (c :: l) = startsWith ps l := by
  simp [startsWith]

/-- The replace pattern of the restore loop for counter `k`, in explicit
character form. -/
theorem entPat_explicit (k : Nat) :
    "__ENTITY_".data ++ natChars k ++ "___".data =
      '_' :: '_' :: 'E' :: 'N' :: 'T' :: 'I' :: 'T' :: 'Y' :: '_' ::
        (natChars k ++ ['_', '_', '_']) := rfl

/-- Two distinct nonempty digit runs followed by the underscore tail never
prefix-match. -/
theorem startsWith_digits_ne :
    ∀ (dk dn : List Char), dk ≠ dn → dk ≠ [] → dn ≠ [] →
      (∀ c ∈ dk, c.isDigit = true) → (∀ c ∈ dn, c.isDigit = true) →
      ∀ M, startsWith (dk ++ ['_', '_', '_'])
        ((dn ++ ['_', '_', '_']) ++ M) = false := by
  intro dk
  induction dk with
  | nil => intro dn _ hk; exact absurd rfl hk
  | cons d dk' ih =>
    intro dn hne _ hnn hdk hdn M
    cases dn with
    | nil => exact absurd rfl hnn
    | cons e dn' =>
      by_cases hde : d = e
      · subst hde
        have hne' : dk' ≠ dn' := fun h => hne (by rw [h])
        simp only [List.cons_append, startsWith, beq_self_eq_true,
          Bool.true_and]
        cases dk' with
        | nil =>
          cases dn' with
          | nil => exact absurd rfl hne'
          | cons f dn'' =>
            have hf : f ≠ '_' :=
              isDigit_ne_usc f (hdn f (List.mem_cons_of_mem _
                (List.mem_cons_self _ _)))
            simp only [List.append_eq, List.nil_append, List.cons_append]
            exact startsWith_cons_ne '_' f _ _ hf
        | cons g dk'' =>
          cases dn' with
          | nil =>
            have hg : g ≠ '_' :=
              isDigit_ne_usc g (hdk g (List.mem_cons_of_mem _
                (List.mem_cons_self _ _)))
            simp only [List.append_eq, List.nil_append, List.cons_append]
            exact startsWith_cons_ne g '_' _ _ (Ne.symm hg)
          | cons f dn'' =>
            exact ih (f :: dn'') hne' (by simp) (by simp)
              (fun c hc => hdk c (List.mem_cons_of_mem _ hc))
              (fun c hc => hdn c (List.mem_cons_of_mem _ hc)) M
      · simp only [List.cons_append, startsWith]
        rw [show (d == e) = false from beq_eq_false_iff_ne.mpr hde]
        simp

/-- Placeholders with distinct counters never prefix-match. -/
theorem startsWith_ph_ph (k n : Nat) (h : k ≠ n) (M : List Char) :
    startsWith (placeholder k) (placeholder n ++ M) = false := by
  rw [placeholder_explicit k, placeholder_explicit n]
  simp only [List.cons_append]
  rw [startsWith_cons_same, startsWith_cons_same, startsWith_cons_same,
    startsWith_cons_same, startsWith_cons_same, startsWith_cons_same,
    startsWith_cons_same, startsWith_cons_same, startsWith_cons_same,
    startsWith_cons_same]
  exact startsWith_digits_ne (natChars k) (natChars n)
    (fun he => h (natChars_injective he)) (natChars_ne_nil k)
    (natChars_ne_nil n) (natChars_mem_isDigit k) (natChars_mem_isDigit n) M

/-- A pattern starting `'_', c` with `c ≠ '_'` matches nowhere at the head
of a mid-state text whose placeholders are all unrestored. -/
theorem startsWith_usc1_midText (c : Char) (hc : c ≠ '_') (zs : List Char) :
    ∀ (ts : List Tok) (n b : Nat), b ≤ n → RawsNoUsc ts →
      startsWith ('_' :: c :: zs) (midText ts n b) = false := by
  intro ts n b hb hraw
  cases ts with
  | nil => rfl
  | cons tk ts' =>
    cases tk with
    | raw c0 =>
      by_cases hamp : c0 = '&'
      · simp only [midText, if_pos hamp]
        rw [show "&amp;".data ++ midText ts' n b =
          '&' :: ("amp;".data ++ midText ts' n b) from rfl]
        exact startsWith_cons_ne '_' '&' _ _ (by decide)
      · have hc0 : c0 ≠ '_' := hraw c0 (List.mem_cons_self _ _)
        simp only [midText, if_neg hamp, List.singleton_append]
        exact startsWith_cons_ne '_' c0 _ _ hc0
    | ent e =>
      simp only [midText, if_neg (by omega : ¬ n < b)]
      rw [placeholder_explicit, List.cons_append, startsWith_cons_same,
        List.cons_append]
      exact startsWith_cons_ne c '_' _ _ (Ne.symm hc)

/-- A pattern starting `'_', '_', c` with `c ≠ '_'` matches nowhere at the
head of a mid-state text whose placeholders are all unrestored. -/
theorem startsWith_usc2_midText (c : Char) (hc : c ≠ '_') (zs : List Char) :
    ∀ (ts : List Tok) (n b : Nat), b ≤ n → RawsNoUsc ts →
      startsWith ('_' :: '_' :: c :: zs) (midText ts n b) = false := by
  intro ts n b hb hraw
  cases ts with
  | nil => rfl
  | cons tk ts' =>
    cases tk with
    | raw c0 =>
      by_cases hamp : c0 = '&'
      · simp only [midText, if_pos hamp]
        rw [show "&amp;".data ++ midText ts' n b =
          '&' :: ("amp;".data ++ midText ts' n b) from rfl]
        exact startsWith_cons_ne '_' '&' _ _ (by decide)
      · have hc0 : c0 ≠ '_' := hraw c0 (List.mem_cons_self _ _)
        simp only [midText, if_neg hamp, List.singleton_append]
        exact startsWith_cons_ne '_' c0 _ _ hc0
    | ent e =>
      simp only [midText, if_neg (by omega : ¬ n < b)]
      rw [placeholder_explicit, List.cons_append, startsWith_cons_same,
        List.cons_append, startsWith_cons_same, List.cons_append]
      exact startsWith_cons_ne c '_' _ _ (Ne.symm hc)

/-- A pattern of underscore-free, ampersand-free characters followed by an
underscore and a digit matches nowhere at the head of a mid-state text. -/
theorem startsWith_word_usc_midText :
    ∀ (w : List Char), (∀ ch ∈ w, ch ≠ '_' ∧ ch ≠ '&') →
      ∀ (d : Char), d.isDigit = true → ∀ (zs : List Char),
      ∀ (ts : List Tok) (n b : Nat), b ≤ n → RawsNoUsc ts →
        startsWith (w ++ '_' :: d :: zs) (midText ts n b) = false := by
  intro w
  induction w with
  | nil =>
    intro _ d hd zs ts n b hb hraw
    rw [List.nil_append]
    exact startsWith_usc1_midText d (isDigit_ne_usc d hd) zs ts n b hb hraw
  | cons ch w' ih =>
    intro hw d hd zs ts n b hb hraw
    have hchu : ch ≠ '_' := (hw ch (List.mem_cons_self _ _)).1
    have hcha : ch ≠ '&' := (hw ch (List.mem_cons_self _ _)).2
    have hw' : ∀ c ∈ w', c ≠ '_' ∧ c ≠ '&' :=
      fun c hc => hw c (List.mem_cons_of_mem _ hc)
    cases ts with
    | nil => rfl
    | cons tk ts' =>
      have hraw' : RawsNoUsc ts' :=
        fun c0 hc0 => hraw c0 (List.mem_cons_of_mem _ hc0)
      cases tk with
      | raw c0 =>
        by_cases hamp : c0 = '&'
        · simp only [midText, if_pos hamp, List.cons_append]
          exact startsWith_cons_ne ch '&' _ _ (Ne.symm hcha)
        · simp only [midText, if_neg hamp, List.singleton_append,
            List.cons_append]
          by_cases hcc : c0 = ch
          · subst hcc
            rw [startsWith_cons_same]
            exact ih hw' d hd zs ts' n b hb hraw'
          · exact startsWith_cons_ne ch c0 _ _ hcc
      | ent e =>
        simp only [midText, if_neg (by omega : ¬ n < b), List.cons_append]
        rw [placeholder_explicit, List.cons_append]
        exact startsWith_cons_ne ch '_' _ _ (Ne.symm hchu)

theorem hasOcc_cons_of_not_starts (p : Char) (ps : List Char) (c : Char)
    (t : List Char) (h1 : startsWith (p :: ps) (c :: t) = false)
    (h2 : hasOcc p ps t = false) : hasOcc p ps (c :: t) = false := by
  simp [hasOcc, h1, h2]

/-- Key occurrence lemma: the replace pattern for counter `k` occurs
nowhere in a mid-state text whose unrestored placeholders all have
counters above `k`. -/
theorem hasOcc_pat_midText :
    ∀ (ts : List Tok) (k n b : Nat), b ≤ n → k < n → RawsNoUsc ts →
      hasOcc '_' ("__ENTITY_".data ++ natChars k ++ "___".data)
        (midText ts n b) = false := by
  intro ts
  induction ts with
  | nil => intro k n b _ _ _; rfl
  | cons tk ts' ih =>
    intro k n b hb hk hraw
    have hraw' : RawsNoUsc ts' :=
      fun c0 hc0 => hraw c0 (List.mem_cons_of_mem _ hc0)
    cases tk with
    | raw c0 =>
      by_cases hamp : c0 = '&'
      · simp only [midText, if_pos hamp]
        rw [hasOcc_append_of_ne '_' _ "&amp;".data _ (by decide)]
        exact ih k n b hb hk hraw'
      · have hc0 : c0 ≠ '_' := hraw c0 (List.mem_cons_self _ _)
        simp only [midText, if_neg hamp]
        rw [hasOcc_append_of_ne '_' _ [c0] _ (by simpa using hc0)]
        exact ih k n b hb hk hraw'
    | ent e =>
      simp only [midText, if_neg (by omega : ¬ n < b)]
      obtain ⟨e0, et, hdn⟩ : ∃ e0 et, natChars n = e0 :: et := by
        cases hn : natChars n with
        | nil => exact absurd hn (natChars_ne_nil n)
        | cons e0 et => exact ⟨e0, et, rfl⟩
      obtain ⟨d0, dt, hdk⟩ : ∃ d0 dt, natChars k = d0 :: dt := by
        cases hn : natChars k with
        | nil => exact absurd hn (natChars_ne_nil k)
        | cons d0 dt => exact ⟨d0, dt, rfl⟩
      have he0 : e0 ≠ '_' :=
        isDigit_ne_usc e0 (natChars_mem_isDigit n e0 (hdn ▸
          List.mem_cons_self _ _))
      have hd0d : d0.isDigit = true :=
        natChars_mem_isDigit k d0 (hdk ▸ List.mem_cons_self _ _)
      rw [placeholder_explicit n]
      simp only [List.cons_append, List.append_assoc, List.nil_append]
      refine hasOcc_cons_of_not_starts _ _ _ _ ?_ ?_
      · have h := startsWith_ph_ph k n (by omega) (midText ts' (n + 1) b)
        rw [placeholder_cons k, entPat_explicit k, placeholder_explicit n]
          at h
        simpa [List.cons_append, List.append_assoc, List.nil_append] using h
      refine hasOcc_cons_of_not_starts _ _ _ _ ?_ ?_
      · rw [startsWith_cons_same, startsWith_cons_same]
        exact startsWith_cons_ne '_' 'E' _ _ (by decide)
      refine hasOcc_cons_of_not_starts _ _ _ _ ?_ ?_
      · rw [startsWith_cons_same]
        exact startsWith_cons_ne '_' 'E' _ _ (by decide)
      refine hasOcc_cons_of_not_starts _ _ _ _
        (startsWith_cons_ne '_' 'E' _ _ (by decide)) ?_
      refine hasOcc_cons_of_not_starts _ _ _ _
        (startsWith_cons_ne '_' 'N' _ _ (by decide)) ?_
      refine hasOcc_cons_of_not_starts _ _ _ _
        (startsWith_cons_ne '_' 'T' _ _ (by decide)) ?_
      refine hasOcc_cons_of_not_starts _ _ _ _
        (startsWith_cons_ne '_' 'I' _ _ (by decide)) ?_
      refine hasOcc_cons_of_not_starts _ _ _ _
        (startsWith_cons_ne '_' 'T' _ _ (by decide)) ?_
      refine hasOcc_cons_of_not_starts _ _ _ _
        (startsWith_cons_ne '_' 'Y' _ _ (by decide)) ?_
      refine hasOcc_cons_of_not_starts _ _ _ _ ?_ ?_
      · rw [startsWith_cons_same, hdn, List.cons_append]
        exact startsWith_cons_ne '_' e0 _ _ he0
      rw [hasOcc_append_of_ne '_' _ (natChars n) _
        (fun a ha => isDigit_ne_usc a (natChars_mem_isDigit n a ha))]
      refine hasOcc_cons_of_not_starts _ _ _ _ ?_ ?_
      · rw [startsWith_cons_same, startsWith_cons_same, startsWith_cons_same,
          hdk, List.cons_append]
        exact startsWith_word_usc_midText ['E', 'N', 'T', 'I', 'T', 'Y']
          (by decide) d0 hd0d (dt ++ ['_', '_', '_']) ts' (n + 1) b
          (by omega) hraw'
      refine hasOcc_cons_of_not_starts _ _ _ _ ?_ ?_
      · rw [startsWith_cons_same, startsWith_cons_same]
        exact startsWith_usc1_midText 'E' (by decide) _ ts' (n + 1) b
          (by omega) hraw'
      refine hasOcc_cons_of_not_starts _ _ _ _ ?_ ?_
      · rw [startsWith_cons_same]
        exact startsWith_usc2_midText 'E' (by decide) _ ts' (n + 1) b
          (by omega) hraw'
      rw [← entPat_explicit k]
      exact ih k (n + 1) b (by omega) (by omega) hraw'

/-- One pass of the restore loop: replacing the pattern for counter `k`
restores exactly the `k`-th entity. -/
theorem restore_step :
    ∀ (ts : List Tok) (n k : Nat) (e : List Char),
      GoodToks ts → RawsNoUsc ts → n ≤ k →
      (entsOf ts)[k - n]? = some e →
      pyReplace '_' ("__ENTITY_".data ++ natChars k ++ "___".data) e
        (midText ts n k) = midText ts n (k + 1) := by
  intro ts
  induction ts with
  | nil =>
    intro n k e _ _ _ hget
    simp [entsOf] at hget
  | cons tk ts' ih =>
    intro n k e hg hraw hnk hget
    have hg' : GoodToks ts' := fun x hx => hg x (List.mem_cons_of_mem _ hx)
    have hraw' : RawsNoUsc ts' :=
      fun x hx => hraw x (List.mem_cons_of_mem _ hx)
    cases tk with
    | raw c =>
      simp only [entsOf] at hget
      simp only [midText]
      by_cases hamp : c = '&'
      · rw [if_pos hamp,
          pyReplace_append_of_ne '_' _ e "&amp;".data _ (by decide),
          ih n k e hg' hraw' hnk hget]
      · rw [if_neg hamp,
          pyReplace_append_of_ne '_' _ e [c] _
            (by simpa using hraw c (List.mem_cons_self _ _)),
          ih n k e hg' hraw' hnk hget]
    | ent e0 =>
      have he0 : EntShape e0 := hg e0 (List.mem_cons_self _ _)
      simp only [entsOf] at hget
      simp only [midText]
      by_cases hlt : n < k
      · rw [if_pos hlt, if_pos (by omega),
          pyReplace_append_of_ne '_' _ e e0 _ he0.no_usc]
        obtain ⟨j, hj⟩ : ∃ j, k - n = j + 1 := ⟨k - n - 1, by omega⟩
        rw [hj, List.getElem?_cons_succ,
          show j = k - (n + 1) from by omega] at hget
        rw [ih (n + 1) k e hg' hraw' (by omega) hget]
      · have hk : k = n := by omega
        subst hk
        rw [Nat.sub_self, List.getElem?_cons_zero] at hget
        have he : e0 = e := by simpa using hget
        subst he
        rw [if_neg (by omega), if_pos (by omega), placeholder_cons k,
          pyReplace_head_match,
          pyReplace_of_not_hasOcc '_' _ e0 _
            (hasOcc_pat_midText ts' k (k + 1) k (by omega) (by omega) hraw'),
          midText_frozen ts' (k + 1) k (k + 1) (by omega) (by omega)]

/-- Running the whole restore loop from counter `k` turns the mid-state at
`k` into the fully restored text. -/
theorem restore_chain :
    ∀ (m : Nat) (ts : List Tok) (n k : Nat),
      GoodToks ts → RawsNoUsc ts → n ≤ k →
      k + m = n + (entsOf ts).length →
      restoreEnts ((entsOf ts).drop (k - n)) k (midText ts n k) =
        midText ts n (n + (entsOf ts).length) := by
  intro m
  induction m with
  | zero =>
    intro ts n k _ _ hnk hm
    have hk : k = n + (entsOf ts).length := by omega
    subst hk
    rw [show n + (entsOf ts).length - n = (entsOf ts).length from by omega,
      List.drop_length]
    rfl
  | succ m ih =>
    intro ts n k hg hraw hnk hm
    have hlt : k - n < (entsOf ts).length := by omega
    rw [List.drop_eq_getElem_cons hlt]
    show restoreEnts ((entsOf ts).drop (k - n + 1)) (k + 1)
      (pyReplace '_' ("__ENTITY_".data ++ natChars k ++ "___".data)
        ((entsOf ts)[k - n]) (midText ts n k)) = _
    rw [restore_step ts n k ((entsOf ts)[k - n]) hg hraw hnk
        (List.getElem?_eq_getElem hlt),
      show k - n + 1 = k + 1 - n from by omega]
    exact ih ts n (k + 1) hg hraw (by omega) (by omega)

/-- On underscore-free input, `escape_ampersands` computes exactly the
specification scan `escSpec`. -/
theorem escape_ampersands_eq_escSpec (l : List Char) (h : '_' ∉ l) :
    escape_ampersands l = escSpec l := by
  have hts : GoodToks (toks l) := toks_good l.length l (le_refl _)
  have hraw : RawsNoUsc (toks l) := toks_raws l.length l (le_refl _) h
  unfold escape_ampersands
  rw [subEntities_eq_toks l.length l (le_refl _) 0]
  dsimp only
  rw [midText_lo (toks l) 0]
  have hchain := restore_chain (entsOf (toks l)).length (toks l) 0 0 hts hraw
    (le_refl _) (by omega)
  rw [Nat.sub_self, List.drop_zero] at hchain
  rw [hchain, midText_hi (toks l) 0 (0 + (entsOf (toks l)).length)
    (le_refl _)]
  exact (escSpec_eq_toks l.length l (le_refl _)).symm

/-- Every ampersand of a specification-scanned text begins a valid entity
reference. -/
theorem ampOk_escSpec (l : List Char) : ampOk (escSpec l) = true := by
  rw [escSpec_eq_toks l.length l (le_refl _)]
  exact ampOk_renderSpec (toks l) (toks_good l.length l (le_refl _))

/-- C9 counterexample: on the input `&lt;&lt;ENTITY_0___x`, whose
ampersands all begin valid entity references, the converter's
entity-escaping step returns `&lt;___ENTITY_1&lt;x` — the text is
corrupted by a placeholder collision — while the specified behaviour
(escape only invalid ampersands, keep valid references, normalize
`&nbsp;`) would return the input unchanged. -/
theorem entity_escaping_counterexample :
    xhtml_entity_step "&lt;&lt;ENTITY_0___x".data =
      "&lt;___ENTITY_1&lt;x".data ∧
    escSpec (fixNbsp "&lt;&lt;ENTITY_0___x".data) =
      "&lt;&lt;ENTITY_0___x".data ∧
    xhtml_entity_step "&lt;&lt;ENTITY_0___x".data ≠
      escSpec (fixNbsp "&lt;&lt;ENTITY_0___x".data) :=
  ⟨by decide, by decide, by decide⟩

/-- C9: for every input containing no underscore (so that no input text can
collide with the internal `___ENTITY_n___` placeholders), the entity
escaping step replaces each ampersand not already part of a valid
character/entity reference with `&amp;`, leaves valid references unchanged
and rewrites `&nbsp;` to `&#160;` (that is, it equals the specification
scan applied after the nbsp normalization), and every ampersand of the
output begins a valid reference. -/
theorem entity_escaping_on_underscore_free (l : List Char) (h : '_' ∉ l) :
    xhtml_entity_step l = escSpec (fixNbsp l) ∧
      ampOk (xhtml_entity_step l) = true := by
  have h2 : '_' ∉ fixNbsp l := by
    intro hm
    rcases mem_pyReplace '&' "nbsp;".data "&#160;".data l.length l
      (le_refl _) '_' hm with hr | hl
    · exact absurd hr (by decide)
    · exact h hl
  have heq : xhtml_entity_step l = escSpec (fixNbsp l) :=
    escape_ampersands_eq_escSpec (fixNbsp l) h2
  exact ⟨heq, by rw [heq]; exact ampOk_escSpec (fixNbsp l)⟩

theorem entity_escaping_on_underscore_free_witness :
    '_' ∉ "a & b &lt; c &nbsp; d".data ∧
      (xhtml_entity_step "a & b &lt; c &nbsp; d".data =
          escSpec (fixNbsp "a & b &lt; c &nbsp; d".data) ∧
        ampOk (xhtml_entity_step "a & b &lt; c &nbsp; d".data) = true) :=
  ⟨by decide, entity_escaping_on_underscore_free _ (by decide)⟩

end EpubSpec
